import Mathlib

/-!
Shallow embedding of the SchoolBinaryTree program (src/main.rs): a slot-map
arena (`SlotMap`) and a binary search tree (`Tree`) whose nodes live in the
arena and reference children by integer keys.  Panics (`expect`, out-of-range
indexing, debug-build integer overflow checks) are modelled by `Option`:
`none` means the operation terminates the process fatally, so no resulting
state is observable.  Rust `u64` words are modelled as `Nat` kept below
`2 ^ 64` by the same masking the source performs; `usize` counters are `Nat`
with explicit checks where the source's debug-build subtraction would
underflow.
-/

namespace SchoolBinaryTree

/-- Slot: a container holding zero or one item (src/main.rs lines 8-26). -/
structure Slot (T : Type) where
  item : Option T
deriving DecidableEq

/-- Slot.new from the source: a slot holding `item`. -/
def Slot.new {T : Type} (item : T) : Slot T := ⟨some item⟩

/-- SlotKey: an opaque handle naming a storage position (lines 37-46). -/
structure SlotKey where
  index : Nat
deriving DecidableEq

@[simp]
theorem SlotKey.index_mk (i : Nat) : (SlotKey.mk i).index = i := rfl

/-- SlotMap: storage slots, an occupied-slot counter, and the occupancy
bitmap `empty_indexes` (1 bit = full slot, 0 bit = empty slot), lines 48-53. -/
structure SlotMap (T : Type) where
  slots : List (Slot T)
  item_count : Nat
  empty_indexes : List Nat
deriving DecidableEq

/-- SlotMap.new (lines 69-75). -/
def SlotMap.new {T : Type} : SlotMap T := ⟨[], 0, []⟩

/-- u64::MAX as a natural number. -/
def U64MAX : Nat := 2 ^ 64 - 1

/-- u64::leading_ones: the number of consecutive 1 bits starting at the most
significant bit (bit 63) of a 64-bit word. -/
def leadingOnes (w : Nat) : Nat :=
  (((List.range 64).find? (fun i => !(w.testBit (63 - i)))).getD 64)

/-- SlotMap.find_free_slot (lines 77-95): scan bitmap words in index order;
the first word with a zero bit yields `chunk_index * 64 + leading_ones`. -/
def findFreeAux : List Nat → Nat → Option Nat
  | [], _ => none
  | w :: ws, chunk_index =>
    let free_slot := leadingOnes w
    if free_slot ≥ 64 then findFreeAux ws (chunk_index + 1)
    else some (chunk_index * 64 + free_slot)

/-- SlotMap.find_free_slot entry point (line 78). -/
def SlotMap.find_free_slot {T : Type} (m : SlotMap T) : Option Nat :=
  findFreeAux m.empty_indexes 0

/-- SlotMap.insert (lines 97-125).  If `item_count < slots.len()` the item is
written into the slot the bitmap reports free (the bitmap bit is NOT set back
to 1); otherwise a new slot is appended.  `none` models the
`find_free_slot().expect(..)` panic and the `slots[free_index]` out-of-range
panic. -/
def SlotMap.insert {T : Type} (m : SlotMap T) (item : T) :
    Option (SlotKey × SlotMap T) :=
  if m.item_count < m.slots.length then
    match m.find_free_slot with
    | none => none
    | some free_index =>
      if free_index < m.slots.length then
        some (⟨free_index⟩,
          { m with slots := m.slots.set free_index ⟨some item⟩,
                   item_count := m.item_count + 1 })
      else none
  else
    some (⟨m.slots.length⟩,
      { m with slots := m.slots ++ [Slot.new item],
               item_count := m.item_count + 1 })

/-- SlotMap.remove (lines 128-157), in source order: `get_mut` bounds check,
`item_count -= 1` (usize; a debug build panics when it is 0), the
chunk-generating `while (slot_chunk + 1) - self.empty_indexes.len() > 0` loop
(usize subtraction: when `empty_indexes.len() > slot_chunk + 1` the first
iteration underflows, which panics in a debug build and never terminates in a
release build — fatal either way, modelled `none`), the bitmap bit clear with
most-significant-bit = lowest index, and finally `slot.clear().expect(..)`. -/
def SlotMap.remove {T : Type} (m : SlotMap T) (slot_key : SlotKey) :
    Option (T × SlotMap T) :=
  if hi : slot_key.index < m.slots.length then
    if m.item_count = 0 then none
    else
      let slot_chunk := slot_key.index / 64
      if m.empty_indexes.length > slot_chunk + 1 then none
      else
        let ei := m.empty_indexes ++
          List.replicate (slot_chunk + 1 - m.empty_indexes.length) U64MAX
        let bit_offset := 64 - 1 - (slot_key.index % 64)
        let slot_mask := 1 <<< bit_offset
        let unset_mask := U64MAX ^^^ slot_mask
        let ei2 := ei.set slot_chunk ((ei.getD slot_chunk 0) &&& unset_mask)
        match (m.slots.get ⟨slot_key.index, hi⟩).item with
        | none => none
        | some x =>
          some (x, { slots := m.slots.set slot_key.index ⟨none⟩,
                     item_count := m.item_count - 1,
                     empty_indexes := ei2 })
  else none

/-- SlotMap.get (lines 160-168): `none` models the two panics. -/
def SlotMap.get {T : Type} (m : SlotMap T) (slot_key : SlotKey) : Option T :=
  match m.slots[slot_key.index]? with
  | none => none
  | some s => s.item

/-- Number of slots whose state is occupied (holds a value). -/
def SlotMap.occupiedCount {T : Type} (m : SlotMap T) : Nat :=
  m.slots.countP (fun s => s.item.isSome)

/-- Arena operation alphabet for whole-sequence statements: the mutating
operations of the arena (`get`/`get_mut` do not change the state). -/
inductive ArenaOp (T : Type) where
  | ins (x : T)
  | rem (i : Nat)

/-- Run one arena operation; `none` when the operation panics. -/
def arenaStep {T : Type} (m : SlotMap T) : ArenaOp T → Option (SlotMap T)
  | .ins x => (m.insert x).map (·.2)
  | .rem i => (m.remove ⟨i⟩).map (·.2)

/-- Run a sequence of arena operations from the empty SlotMap. -/
def arenaRun {T : Type} (ops : List (ArenaOp T)) : Option (SlotMap T) :=
  ops.foldlM arenaStep SlotMap.new

/-- TreeNode (lines 182-209): a data value plus optional left and right
child keys into the same arena. -/
structure TreeNode (T : Type) where
  data : T
  left : Option SlotKey
  right : Option SlotKey
deriving DecidableEq

/-- TreeNode.new (lines 201-209). -/
def TreeNode.new {T : Type} (data : T) : TreeNode T := ⟨data, none, none⟩

/-- TreeDirection (lines 211-215). -/
inductive TreeDirection where
  | Left
  | Right
deriving DecidableEq

/-- TreeOrdering (lines 217-225): Pre = NLR, In = LNR, Post = LRN. -/
inductive TreeOrdering where
  | Pre
  | In
  | Post
deriving DecidableEq

/-- Tree (lines 227-230): one arena of TreeNode plus a root key. -/
structure Tree (T : Type) where
  storage : SlotMap (TreeNode T)
  root : SlotKey
deriving DecidableEq

/-- Tree.new (lines 232-240): insert the root node into a fresh SlotMap.
On the empty SlotMap `insert` takes the append branch, so the composition
is written out; `tree_new_eq` below checks it against `SlotMap.insert`. -/
def Tree.new {T : Type} (root : T) : Tree T :=
  { storage := { slots := [Slot.new (TreeNode.new root)], item_count := 1,
                 empty_indexes := [] },
    root := ⟨0⟩ }

/-- Tree.new is exactly `SlotMap.new.insert` followed by packing the parts. -/
theorem tree_new_eq {T : Type} (root : T) :
    SlotMap.insert SlotMap.new (TreeNode.new root) =
      some ((Tree.new root).root, (Tree.new root).storage) := rfl

/-- Descent loop of Tree.insert_ordered (lines 269-303): starting at a key,
find either a duplicate (the loop returns `Err(data)`) or the parent key and
direction at which the new node is linked.  The source loop has no bound;
`fuel` exhaustion (`none`) models non-termination, and `none` also models the
`storage.get` panic on a dangling key. -/
def findInsert {T : Type} [LinearOrder T] (st : SlotMap (TreeNode T))
    (data : T) : Nat → SlotKey → Option (Except T (SlotKey × TreeDirection))
  | 0, _ => none
  | fuel + 1, current_key =>
    match st.get current_key with
    | none => none
    | some current_node =>
      if data = current_node.data then some (.error data)
      else if data < current_node.data then
        match current_node.left with
        | some left_node => findInsert st data fuel left_node
        | none => some (.ok (current_key, .Left))
      else
        match current_node.right with
        | some right_node => findInsert st data fuel right_node
        | none => some (.ok (current_key, .Right))

/-- Child-field update of lines 311-318: set the parent's left or right
link to the key of the newly created node. -/
def updChild {T : Type} (insert_node : TreeNode T) (dir : TreeDirection)
    (new_node : SlotKey) : TreeNode T :=
  match dir with
  | .Left => { insert_node with left := some new_node }
  | .Right => { insert_node with right := some new_node }

/-- Tree.insert_ordered (lines 263-321): run the descent, then
`storage.insert` the new node, then `get_mut` the parent and set its child
field.  The pair returns the `Result` together with the tree after the call
(`&mut self` in the source); on `Err(data)` the tree is unchanged. -/
def Tree.insert_ordered {T : Type} [LinearOrder T] (t : Tree T) (data : T) :
    Option (Except T Unit × Tree T) :=
  match findInsert t.storage data t.storage.slots.length t.root with
  | none => none
  | some (.error d) => some (.error d, t)
  | some (.ok (current_key, insert_direction)) =>
    match t.storage.insert (TreeNode.new data) with
    | none => none
    | some (new_node, st1) =>
      match st1.slots[current_key.index]? with
      | none => none
      | some s =>
        match s.item with
        | none => none
        | some insert_node =>
          some (.ok (),
            { storage :=
                { st1 with slots := (st1.slots.set current_key.index
                    ⟨some (updChild insert_node insert_direction new_node)⟩) },
              root := t.root })

/-- Descent loop of Tree.contains (lines 324-362), same shape as the insert
descent but with no mutation. -/
def containsGo {T : Type} [LinearOrder T] (st : SlotMap (TreeNode T))
    (data : T) : Nat → SlotKey → Option Bool
  | 0, _ => none
  | fuel + 1, current_key =>
    match st.get current_key with
    | none => none
    | some current_node =>
      if data = current_node.data then some true
      else if data < current_node.data then
        match current_node.left with
        | some left_node => containsGo st data fuel left_node
        | none => some false
      else
        match current_node.right with
        | some right_node => containsGo st data fuel right_node
        | none => some false

/-- Tree.contains (lines 324-362). -/
def Tree.contains {T : Type} [LinearOrder T] (t : Tree T) (data : T) :
    Option Bool :=
  containsGo t.storage data t.storage.slots.length t.root

/-- Stored values of a tree in storage (slot) order, exactly the
`slots.into_iter().filter_map(|slot| slot.item.map(|node| node.data))`
enumeration of Tree.delete (lines 371-375). -/
def Tree.values {T : Type} (t : Tree T) : List T :=
  t.storage.slots.filterMap (fun s => s.item.map (fun nd => nd.data))

/-- Rebuild loop of Tree.delete (lines 382-387): insert every remaining item
via `insert_ordered`, where `expect` turns a duplicate into a panic. -/
def insertAllStrict {T : Type} [LinearOrder T] (t : Tree T) (items : List T) :
    Option (Tree T) :=
  items.foldlM
    (fun tr item =>
      match tr.insert_ordered item with
      | some (.ok _, t2) => some t2
      | _ => none) t

/-- Tree.delete (lines 364-389): if the value is absent return the tree
unchanged; otherwise enumerate every occupied slot's value in storage order,
discard the deleted value, take the first survivor as the new root
(`expect "All trees must have one root"` panics when none survives) and
insert the rest in that same order into a brand-new tree. -/
def Tree.delete {T : Type} [LinearOrder T] (t : Tree T) (data : T) :
    Option (Tree T) :=
  match t.contains data with
  | none => none
  | some false => some t
  | some true =>
    match t.values.filter (fun slot_data => slot_data ≠ data) with
    | [] => none
    | root :: rest => insertAllStrict (Tree.new root) rest

/-- Recursive worker of Tree.out_order (lines 402-432), instrumented to
record, for each `println!("{:?}", node.data)`, the visited slot index
together with the printed value; the observable output of the source is the
second components. -/
def innerOutP {T : Type} (st : SlotMap (TreeNode T)) (ordering : TreeOrdering) :
    Nat → Option SlotKey → Option (List (Nat × T))
  | _, none => some []
  | 0, some _ => none
  | fuel + 1, some node_key =>
    match st.get node_key with
    | none => none
    | some node =>
      match ordering with
      | .Pre =>
        (innerOutP st ordering fuel node.left).bind (fun l =>
          (innerOutP st ordering fuel node.right).map (fun r =>
            (node_key.index, node.data) :: l ++ r))
      | .In =>
        (innerOutP st ordering fuel node.left).bind (fun l =>
          (innerOutP st ordering fuel node.right).map (fun r =>
            l ++ (node_key.index, node.data) :: r))
      | .Post =>
        (innerOutP st ordering fuel node.left).bind (fun l =>
          (innerOutP st ordering fuel node.right).map (fun r =>
            l ++ r ++ [(node_key.index, node.data)]))

/-- Tree.out_order with slot indexes kept alongside the printed values. -/
def Tree.outOrderP {T : Type} (t : Tree T) (ordering : TreeOrdering) :
    Option (List (Nat × T)) :=
  innerOutP t.storage ordering t.storage.slots.length (some t.root)

/-- Tree.out_order (lines 391-400): the sequence of values printed between
the start and end markers. -/
def Tree.out_order {T : Type} (t : Tree T) (ordering : TreeOrdering) :
    Option (List T) :=
  (t.outOrderP ordering).map (fun l => l.map Prod.snd)

/-- Queue loop of Tree.out_breadth (lines 435-459), instrumented with slot
indexes like `innerOutP`: pop the front key, print its value, push the left
then the right child when present. -/
def outBreadthGo {T : Type} (st : SlotMap (TreeNode T)) :
    Nat → List SlotKey → Option (List (Nat × T))
  | _, [] => some []
  | 0, _ :: _ => none
  | fuel + 1, current_key :: queue =>
    match st.get current_key with
    | none => none
    | some current_node =>
      (outBreadthGo st fuel
          (queue ++ current_node.left.toList ++ current_node.right.toList)).map
        (fun rest => (current_key.index, current_node.data) :: rest)

/-- Tree.out_breadth with slot indexes kept alongside the printed values. -/
def Tree.outBreadthP {T : Type} (t : Tree T) : Option (List (Nat × T)) :=
  outBreadthGo t.storage t.storage.slots.length [t.root]

/-- Tree.out_breadth (lines 435-459): the sequence of printed values. -/
def Tree.out_breadth {T : Type} (t : Tree T) : Option (List T) :=
  (t.outBreadthP).map (fun l => l.map Prod.snd)

/-- Parent-child relation of the stored tree: slot `p` is occupied and its
node links to slot `c` as left or right child. -/
def Tree.childOf {T : Type} (t : Tree T) (p c : Nat) : Prop :=
  ∃ s nd, t.storage.slots[p]? = some s ∧ s.item = some nd ∧
    (nd.left = some ⟨c⟩ ∨ nd.right = some ⟨c⟩)

/-- Driver insertion loop (user_tree, lines 475-493): feed values one at a
time to `insert_ordered`, ignoring duplicate rejections (the tree is
unchanged on `Err`). -/
def insertAll {T : Type} [LinearOrder T] (t : Tree T) (vs : List T) :
    Option (Tree T) :=
  vs.foldlM (fun tr v => (tr.insert_ordered v).map (fun p => p.2)) t

/-- Building a tree the way the program does: a mandatory root value, then a
sequence of `insert_ordered` calls. -/
def buildTree {T : Type} [LinearOrder T] (root : T) (vs : List T) :
    Option (Tree T) :=
  insertAll (Tree.new root) vs

/-! Abstract model: plain binary trees used to reason about the arena-backed
tree through a representation relation. -/

/-- Plain binary tree of values. -/
inductive BT (T : Type) where
  | leaf : BT T
  | node (l : BT T) (data : T) (r : BT T) : BT T
deriving DecidableEq

/-- In-order value list of a plain binary tree. -/
def BT.inOrd {T : Type} : BT T → List T
  | .leaf => []
  | .node l d r => l.inOrd ++ d :: r.inOrd

/-- Abstract membership test with the same descent as the source. -/
def BT.containsA {T : Type} [LinearOrder T] (x : T) : BT T → Bool
  | .leaf => false
  | .node l d r =>
    if x = d then true else if x < d then l.containsA x else r.containsA x

/-- Abstract ordered insertion; `none` on a duplicate. -/
def BT.insertA {T : Type} [LinearOrder T] (x : T) : BT T → Option (BT T)
  | .leaf => some (.node .leaf x .leaf)
  | .node l d r =>
    if x = d then none
    else if x < d then (l.insertA x).map (fun l2 => .node l2 d r)
    else (r.insertA x).map (fun r2 => .node l d r2)

/-- Binary-search-tree ordering invariant. -/
def BT.SortedB {T : Type} [LinearOrder T] : BT T → Prop
  | .leaf => True
  | .node l d r =>
    (∀ x ∈ l.inOrd, x < d) ∧ (∀ x ∈ r.inOrd, d < x) ∧ l.SortedB ∧ r.SortedB

/-- Key-annotated binary tree: the abstract shape of the stored tree with the
arena slot index of every node. -/
inductive KT (T : Type) where
  | leaf : KT T
  | node (k : Nat) (l : KT T) (data : T) (r : KT T) : KT T
deriving DecidableEq

/-- Forget the keys. -/
def KT.strip {T : Type} : KT T → BT T
  | .leaf => .leaf
  | .node _ l d r => .node l.strip d r.strip

/-- Keys in pre-order. -/
def KT.keys {T : Type} : KT T → List Nat
  | .leaf => []
  | .node k l _ r => k :: l.keys ++ r.keys

/-- Height: number of nodes on a longest root-to-leaf path. -/
def KT.height {T : Type} : KT T → Nat
  | .leaf => 0
  | .node _ l _ r => max l.height r.height + 1

/-- Number of nodes. -/
def KT.sizeK {T : Type} : KT T → Nat
  | .leaf => 0
  | .node _ l _ r => l.sizeK + r.sizeK + 1

/-- Keys strictly increase along every edge: in the program a child node is
always created after its parent, at a strictly larger slot index. -/
def KT.Incr {T : Type} : KT T → Prop
  | .leaf => True
  | .node k l _ r =>
    (∀ j ∈ l.keys, k < j) ∧ (∀ j ∈ r.keys, k < j) ∧ l.Incr ∧ r.Incr

/-- Key of the root node, if any. -/
def KT.rootK {T : Type} : KT T → Option Nat
  | .leaf => none
  | .node k _ _ _ => some k

/-- Abstract insertion mirroring `findInsert` plus the link-up: the new node
gets key `nk`; `none` on a duplicate. -/
def KT.insertK {T : Type} [LinearOrder T] (nk : Nat) (x : T) :
    KT T → Option (KT T)
  | .leaf => some (.node nk .leaf x .leaf)
  | .node k l d r =>
    if x = d then none
    else if x < d then (l.insertK nk x).map (fun l2 => .node k l2 d r)
    else (r.insertK nk x).map (fun r2 => .node k l d r2)

/-- Parent-child key pairs of the abstract tree. -/
def KT.edges {T : Type} : KT T → List (Nat × Nat)
  | .leaf => []
  | .node k l _ r =>
    ((l.rootK.map (fun c => (k, c))).toList ++
      (r.rootK.map (fun c => (k, c))).toList) ++ l.edges ++ r.edges

/-- Pre-order key-value pairs. -/
def KT.preP {T : Type} : KT T → List (Nat × T)
  | .leaf => []
  | .node k l d r => (k, d) :: l.preP ++ r.preP

/-- In-order key-value pairs. -/
def KT.inP {T : Type} : KT T → List (Nat × T)
  | .leaf => []
  | .node k l d r => l.inP ++ (k, d) :: r.inP

/-- Post-order key-value pairs. -/
def KT.postP {T : Type} : KT T → List (Nat × T)
  | .leaf => []
  | .node k l d r => l.postP ++ r.postP ++ [(k, d)]

/-- Singleton forest for a node, empty forest for a leaf: the children a
breadth-first traversal enqueues. -/
def KT.toForest {T : Type} : KT T → List (KT T)
  | .leaf => []
  | .node k l d r => [.node k l d r]

/-- All keys of a forest. -/
def forestKeys {T : Type} (q : List (KT T)) : List Nat :=
  (q.map KT.keys).flatten

/-- Total size of a forest. -/
def forestSize {T : Type} (q : List (KT T)) : Nat :=
  (q.map KT.sizeK).sum

theorem toForest_size {T : Type} (t : KT T) : forestSize t.toForest = t.sizeK := by
  cases t <;> simp [KT.toForest, forestSize, KT.sizeK]

theorem toForest_length {T : Type} (t : KT T) : t.toForest.length ≤ 1 := by
  cases t <;> simp [KT.toForest]

/-- Level-order key-value pairs of a forest: the queue loop of
`out_breadth` on the abstract trees. -/
def bfsP {T : Type} : List (KT T) → List (Nat × T)
  | [] => []
  | .leaf :: q => bfsP q
  | .node k l d r :: q => (k, d) :: bfsP (q ++ l.toForest ++ r.toForest)
termination_by q => 2 * forestSize q + q.length
decreasing_by
  · simp [forestSize]; omega
  · simp only [forestSize, List.map_append, List.sum_append, List.length_append,
      List.map_cons, List.sum_cons, List.length_cons, KT.sizeK]
    have hl := toForest_size l
    have hr := toForest_size r
    have hl2 := toForest_length l
    have hr2 := toForest_length r
    simp only [forestSize] at hl hr
    omega

/-! Lemmas about the abstract trees. -/

theorem BT.sorted_inOrd_pairwise {T : Type} [LinearOrder T] (bt : BT T)
    (h : bt.SortedB) : bt.inOrd.Pairwise (· < ·) := by
  induction bt with
  | leaf => simp [BT.inOrd]
  | node l d r ihl ihr =>
    obtain ⟨hld, hrd, hl, hr⟩ := h
    rw [BT.inOrd, List.pairwise_append]
    refine ⟨ihl hl, List.pairwise_cons.2 ⟨fun b hb => hrd b hb, ihr hr⟩,
      fun a ha b hb => ?_⟩
    rcases List.mem_cons.1 hb with hb | hb
    · exact hb ▸ hld a ha
    · exact lt_trans (hld a ha) (hrd b hb)

theorem BT.containsA_iff_mem {T : Type} [LinearOrder T] (x : T) (bt : BT T)
    (h : bt.SortedB) : bt.containsA x = true ↔ x ∈ bt.inOrd := by
  induction bt with
  | leaf => simp [BT.containsA, BT.inOrd]
  | node l d r ihl ihr =>
    obtain ⟨hld, hrd, hl, hr⟩ := h
    rw [BT.containsA, BT.inOrd]
    by_cases hxd : x = d
    · simp [hxd]
    · by_cases hlt : x < d
      · have hnr : x ∉ r.inOrd := fun hm => absurd (hrd x hm) (asymm hlt)
        simp [hxd, hlt, ihl hl, hnr]
      · have hdx : d < x := lt_of_le_of_ne (not_lt.1 hlt) (Ne.symm hxd)
        have hnl : x ∉ l.inOrd := fun hm => absurd (hld x hm) (asymm hdx)
        simp [hxd, hlt, ihr hr, hnl]

theorem BT.insertA_none_iff {T : Type} [LinearOrder T] (x : T) (bt : BT T) :
    bt.insertA x = none ↔ bt.containsA x = true := by
  induction bt with
  | leaf => simp [BT.insertA, BT.containsA]
  | node l d r ihl ihr =>
    rw [BT.insertA, BT.containsA]
    by_cases hxd : x = d
    · simp [hxd]
    · by_cases hlt : x < d
      · simp [hxd, hlt, Option.map_eq_none', ihl]
      · simp [hxd, hlt, Option.map_eq_none', ihr]

theorem BT.insertA_inOrd_perm {T : Type} [LinearOrder T] {x : T} {bt bt2 : BT T}
    (h : bt.insertA x = some bt2) : bt2.inOrd.Perm (x :: bt.inOrd) := by
  induction bt generalizing bt2 with
  | leaf =>
    rw [BT.insertA] at h
    cases h
    simp [BT.inOrd]
  | node l d r ihl ihr =>
    rw [BT.insertA] at h
    by_cases hxd : x = d
    · simp [hxd] at h
    · by_cases hlt : x < d
      · simp only [hxd, hlt, if_false, if_true, Option.map_eq_some'] at h
        obtain ⟨l2, hl2, rfl⟩ := h
        rw [BT.inOrd, BT.inOrd]
        exact (ihl hl2).append_right (d :: r.inOrd)
      · simp only [hxd, hlt, if_false, Option.map_eq_some'] at h
        obtain ⟨r2, hr2, rfl⟩ := h
        rw [BT.inOrd, BT.inOrd]
        have p1 := List.Perm.append_left l.inOrd ((ihr hr2).cons d)
        have p2 := List.Perm.append_left l.inOrd (List.Perm.swap x d r.inOrd)
        exact (p1.trans p2).trans List.perm_middle

theorem BT.insertA_sorted {T : Type} [LinearOrder T] {x : T} {bt bt2 : BT T}
    (hs : bt.SortedB) (h : bt.insertA x = some bt2) : bt2.SortedB := by
  induction bt generalizing bt2 with
  | leaf =>
    rw [BT.insertA] at h
    cases h
    exact ⟨by simp [BT.inOrd], by simp [BT.inOrd], trivial, trivial⟩
  | node l d r ihl ihr =>
    obtain ⟨hld, hrd, hl, hr⟩ := hs
    rw [BT.insertA] at h
    by_cases hxd : x = d
    · simp [hxd] at h
    · by_cases hlt : x < d
      · simp only [hxd, hlt, if_false, if_true, Option.map_eq_some'] at h
        obtain ⟨l2, hl2, rfl⟩ := h
        refine ⟨fun y hy => ?_, hrd, ihl hl hl2, hr⟩
        rcases List.mem_cons.1 ((BT.insertA_inOrd_perm hl2).mem_iff.1 hy) with
          hy | hy
        · exact hy ▸ hlt
        · exact hld y hy
      · have hdx : d < x := lt_of_le_of_ne (not_lt.1 hlt) (Ne.symm hxd)
        simp only [hxd, hlt, if_false, Option.map_eq_some'] at h
        obtain ⟨r2, hr2, rfl⟩ := h
        refine ⟨hld, fun y hy => ?_, hl, ihr hr hr2⟩
        rcases List.mem_cons.1 ((BT.insertA_inOrd_perm hr2).mem_iff.1 hy) with
          hy | hy
        · exact hy ▸ hdx
        · exact hrd y hy

theorem KT.rootK_mem {T : Type} {kt : KT T} {c : Nat} (h : kt.rootK = some c) :
    c ∈ kt.keys := by
  cases kt with
  | leaf => simp [KT.rootK] at h
  | node k l d r =>
    rw [KT.rootK] at h
    cases h
    simp [KT.keys]

theorem KT.edges_mem {T : Type} {kt : KT T} {p c : Nat}
    (h : (p, c) ∈ kt.edges) : p ∈ kt.keys ∧ c ∈ kt.keys := by
  induction kt with
  | leaf => simp [KT.edges] at h
  | node k l d r ihl ihr =>
    rw [KT.edges] at h
    simp only [List.mem_append] at h
    rcases h with ((h | h) | h) | h
    · cases hL : l.rootK with
      | none => simp [hL] at h
      | some c0 =>
        simp only [hL, Option.map_some', Option.toList_some,
          List.mem_singleton, Prod.mk.injEq] at h
        obtain ⟨rfl, rfl⟩ := h
        exact ⟨by simp [KT.keys], by simp [KT.keys, KT.rootK_mem hL]⟩
    · cases hR : r.rootK with
      | none => simp [hR] at h
      | some c0 =>
        simp only [hR, Option.map_some', Option.toList_some,
          List.mem_singleton, Prod.mk.injEq] at h
        obtain ⟨rfl, rfl⟩ := h
        exact ⟨by simp [KT.keys], by simp [KT.keys, KT.rootK_mem hR]⟩
    · exact ⟨by simp [KT.keys, (ihl h).1], by simp [KT.keys, (ihl h).2]⟩
    · exact ⟨by simp [KT.keys, (ihr h).1], by simp [KT.keys, (ihr h).2]⟩

theorem KT.height_add_le {T : Type} : ∀ kt : KT T, kt.Incr →
    ∀ n b : Nat, (∀ j ∈ kt.keys, j < n) → b ≤ n → (∀ j ∈ kt.keys, b ≤ j) →
    kt.height + b ≤ n := by
  intro kt
  induction kt with
  | leaf =>
    intro _ n b _ hb _
    simpa [KT.height] using hb
  | node k l d r ihl ihr =>
    intro hI n b hlt hb hge
    obtain ⟨hkl, hkr, hl, hr⟩ := hI
    have hkn : k < n := hlt k (by simp [KT.keys])
    have hbl := ihl hl n (k + 1) (fun j hj => hlt j (by simp [KT.keys, hj]))
      hkn (fun j hj => hkl j hj)
    have hbr := ihr hr n (k + 1) (fun j hj => hlt j (by simp [KT.keys, hj]))
      hkn (fun j hj => hkr j hj)
    have hbk : b ≤ k := hge k (by simp [KT.keys])
    simp only [KT.height]
    rcases le_total l.height r.height with hm | hm
    · rw [max_eq_right hm]; omega
    · rw [max_eq_left hm]; omega

theorem KT.height_le {T : Type} (kt : KT T) (hI : kt.Incr) (n : Nat)
    (hlt : ∀ j ∈ kt.keys, j < n) : kt.height ≤ n := by
  have := KT.height_add_le kt hI n 0 hlt (Nat.zero_le n) (fun j _ => Nat.zero_le j)
  omega

theorem KT.insertK_none_iff {T : Type} [LinearOrder T] (nk : Nat) (x : T)
    (kt : KT T) : kt.insertK nk x = none ↔ kt.strip.insertA x = none := by
  induction kt with
  | leaf => simp [KT.insertK, KT.strip, BT.insertA]
  | node k l d r ihl ihr =>
    rw [KT.insertK, KT.strip, BT.insertA]
    by_cases hxd : x = d
    · simp [hxd]
    · by_cases hlt : x < d <;>
        simp [hxd, hlt, Option.map_eq_none', ihl, ihr]

theorem KT.strip_insertK {T : Type} [LinearOrder T] {nk : Nat} {x : T}
    {kt kt2 : KT T} (h : kt.insertK nk x = some kt2) :
    kt.strip.insertA x = some kt2.strip := by
  induction kt generalizing kt2 with
  | leaf =>
    rw [KT.insertK] at h
    cases h
    simp [KT.strip, BT.insertA]
  | node k l d r ihl ihr =>
    rw [KT.insertK] at h
    rw [KT.strip, BT.insertA]
    by_cases hxd : x = d
    · simp [hxd] at h
    · by_cases hlt : x < d
      · simp only [hxd, hlt, if_false, if_true, Option.map_eq_some'] at h ⊢
        obtain ⟨l2, hl2, rfl⟩ := h
        exact ⟨l2.strip, ihl hl2, by rw [KT.strip]⟩
      · simp only [hxd, hlt, if_false, Option.map_eq_some'] at h ⊢
        obtain ⟨r2, hr2, rfl⟩ := h
        exact ⟨r2.strip, ihr hr2, by rw [KT.strip]⟩

theorem KT.keys_insertK {T : Type} [LinearOrder T] {nk : Nat} {x : T}
    {kt kt2 : KT T} (h : kt.insertK nk x = some kt2) :
    kt2.keys.Perm (nk :: kt.keys) := by
  induction kt generalizing kt2 with
  | leaf =>
    rw [KT.insertK] at h
    cases h
    simp [KT.keys]
  | node k l d r ihl ihr =>
    rw [KT.insertK] at h
    by_cases hxd : x = d
    · simp [hxd] at h
    · by_cases hlt : x < d
      · simp only [hxd, hlt, if_false, if_true, Option.map_eq_some'] at h
        obtain ⟨l2, hl2, rfl⟩ := h
        rw [KT.keys, KT.keys]
        have p1 := ((ihl hl2).append_right r.keys).cons k
        exact p1.trans (List.Perm.swap nk k (l.keys ++ r.keys))
      · simp only [hxd, hlt, if_false, Option.map_eq_some'] at h
        obtain ⟨r2, hr2, rfl⟩ := h
        rw [KT.keys, KT.keys]
        have p1 := (List.Perm.append_left l.keys (ihr hr2)).cons k
        have p2 := (@List.perm_middle _ nk l.keys r.keys).cons k
        exact (p1.trans p2).trans (List.Perm.swap nk k (l.keys ++ r.keys))

theorem KT.incr_insertK {T : Type} [LinearOrder T] {nk : Nat} {x : T} :
    ∀ {kt kt2 : KT T}, kt.Incr → (∀ j ∈ kt.keys, j < nk) →
    kt.insertK nk x = some kt2 → kt2.Incr := by
  intro kt
  induction kt with
  | leaf =>
    intro kt2 _ _ h
    rw [KT.insertK] at h
    cases h
    exact ⟨by simp [KT.keys], by simp [KT.keys], trivial, trivial⟩
  | node k l d r ihl ihr =>
    intro kt2 hI hbnd h
    obtain ⟨hkl, hkr, hl, hr⟩ := hI
    have hknk : k < nk := hbnd k (by simp [KT.keys])
    rw [KT.insertK] at h
    by_cases hxd : x = d
    · simp [hxd] at h
    · by_cases hlt : x < d
      · simp only [hxd, hlt, if_false, if_true, Option.map_eq_some'] at h
        obtain ⟨l2, hl2, rfl⟩ := h
        refine ⟨fun j hj => ?_, hkr, ?_, hr⟩
        · rcases List.mem_cons.1 ((KT.keys_insertK hl2).mem_iff.1 hj) with
            hj | hj
          · omega
          · exact hkl j hj
        · exact ihl hl (fun j hj => hbnd j (by simp [KT.keys, hj])) hl2
      · simp only [hxd, hlt, if_false, Option.map_eq_some'] at h
        obtain ⟨r2, hr2, rfl⟩ := h
        refine ⟨hkl, fun j hj => ?_, hl, ?_⟩
        · rcases List.mem_cons.1 ((KT.keys_insertK hr2).mem_iff.1 hj) with
            hj | hj
          · omega
          · exact hkr j hj
        · exact ihr hr (fun j hj => hbnd j (by simp [KT.keys, hj])) hr2

theorem KT.preP_map_fst {T : Type} (kt : KT T) :
    kt.preP.map Prod.fst = kt.keys := by
  induction kt <;> simp [KT.preP, KT.keys, *]

theorem KT.inP_map_snd {T : Type} (kt : KT T) :
    kt.inP.map Prod.snd = kt.strip.inOrd := by
  induction kt <;> simp [KT.inP, KT.strip, BT.inOrd, *]

theorem KT.postP_map_fst_perm {T : Type} (kt : KT T) :
    (kt.postP.map Prod.fst).Perm kt.keys := by
  induction kt with
  | leaf => simp [KT.postP, KT.keys]
  | node k l d r ihl ihr =>
    rw [KT.postP, KT.keys]
    simp only [List.map_append, List.map_cons, List.map_nil]
    exact (List.perm_append_singleton k
      (l.postP.map Prod.fst ++ r.postP.map Prod.fst)).trans
      ((ihl.append ihr).cons k)

theorem KT.keys_length_sizeK {T : Type} (kt : KT T) :
    kt.keys.length = kt.sizeK := by
  induction kt <;> simp [KT.keys, KT.sizeK, *]

theorem forestKeys_append {T : Type} (q r : List (KT T)) :
    forestKeys (q ++ r) = forestKeys q ++ forestKeys r := by
  simp [forestKeys]

theorem forestKeys_cons {T : Type} (t : KT T) (q : List (KT T)) :
    forestKeys (t :: q) = t.keys ++ forestKeys q := by
  simp [forestKeys]

theorem forestKeys_toForest {T : Type} (t : KT T) :
    forestKeys t.toForest = t.keys := by
  cases t <;> simp [forestKeys, KT.toForest, KT.keys]

theorem perm_rotate3 {α : Type} (a b c : List α) :
    (a ++ (b ++ c)).Perm (b ++ (c ++ a)) := by
  have h := @List.perm_append_comm _ a (b ++ c)
  rwa [List.append_assoc] at h

theorem bfsP_map_fst_perm {T : Type} (q : List (KT T)) :
    ((bfsP q).map Prod.fst).Perm (forestKeys q) := by
  induction q using bfsP.induct with
  | case1 => simp [bfsP, forestKeys]
  | case2 q ih =>
    rw [bfsP]
    simpa [forestKeys, KT.keys] using ih
  | case3 k l d r q ih =>
    rw [bfsP]
    simp only [List.map_cons]
    have h2 : forestKeys (q ++ l.toForest ++ r.toForest) =
        forestKeys q ++ (l.keys ++ r.keys) := by
      rw [forestKeys_append, forestKeys_append, forestKeys_toForest,
        forestKeys_toForest, List.append_assoc]
    rw [h2] at ih
    have hR : forestKeys (KT.node k l d r :: q) =
        k :: (l.keys ++ (r.keys ++ forestKeys q)) := by
      rw [forestKeys_cons, KT.keys]
      simp [List.append_assoc]
    rw [hR]
    exact (ih.cons k).trans
      ((perm_rotate3 (forestKeys q) l.keys r.keys).cons k)

/-! Representation relation between the arena slots and the abstract tree. -/

/-- The slot list represents the abstract tree `kt` below the optional key:
`none` represents a leaf, and a key represents a node stored in the slot it
names, whose child links represent the abstract children. -/
inductive Rep {T : Type} (slots : List (Slot (TreeNode T))) :
    Option SlotKey → KT T → Prop where
  | leaf : Rep slots none .leaf
  | node {i : Nat} {nd : TreeNode T} {kl kr : KT T} :
      slots[i]? = some ⟨some nd⟩ →
      Rep slots nd.left kl → Rep slots nd.right kr →
      Rep slots (some ⟨i⟩) (.node i kl nd.data kr)

theorem Rep.of_leaf {T : Type} {slots : List (Slot (TreeNode T))}
    {ok : Option SlotKey} (h : Rep slots ok KT.leaf) : ok = none := by
  cases h
  rfl

theorem Rep.of_node {T : Type} {slots : List (Slot (TreeNode T))}
    {ok : Option SlotKey} {j : Nat} {kl kr : KT T} {d : T}
    (h : Rep slots ok (KT.node j kl d kr)) : ok = some ⟨j⟩ := by
  cases h
  rfl

theorem Rep.node_elim {T : Type} {slots : List (Slot (TreeNode T))}
    {j : Nat} {kl kr : KT T} {d : T} {k : SlotKey}
    (h : Rep slots (some k) (KT.node j kl d kr)) :
    k = ⟨j⟩ ∧ ∃ nd : TreeNode T, slots[j]? = some ⟨some nd⟩ ∧ nd.data = d ∧
      Rep slots nd.left kl ∧ Rep slots nd.right kr := by
  cases h with
  | node hs hl hr => exact ⟨rfl, _, hs, rfl, hl, hr⟩

theorem getElem?_append_of_some {α : Type} {l ex : List α} {i : Nat} {a : α}
    (h : l[i]? = some a) : (l ++ ex)[i]? = some a := by
  have hlt : i < l.length := (List.getElem?_eq_some.1 h).1
  rw [List.getElem?_append_left hlt]
  exact h

theorem Rep.mono_append {T : Type} {slots ex : List (Slot (TreeNode T))}
    {ok : Option SlotKey} {kt : KT T} (h : Rep slots ok kt) :
    Rep (slots ++ ex) ok kt := by
  induction h with
  | leaf => exact .leaf
  | node hs _ _ ihl ihr => exact .node (getElem?_append_of_some hs) ihl ihr

theorem Rep.mono_set {T : Type} {slots : List (Slot (TreeNode T))}
    {p : Nat} {s : Slot (TreeNode T)} {ok : Option SlotKey} {kt : KT T}
    (h : Rep slots ok kt) (hp : p ∉ kt.keys) : Rep (slots.set p s) ok kt := by
  induction h with
  | leaf => exact .leaf
  | node hs _ _ ihl ihr =>
    rw [KT.keys] at hp
    simp only [List.mem_cons, List.mem_append, not_or] at hp
    obtain ⟨⟨hp1, hp2⟩, hp3⟩ := hp
    exact .node (by rw [List.getElem?_set_ne hp1]; exact hs) (ihl hp2) (ihr hp3)

/-- Abstraction invariant tying a reachable tree state to its abstract
keyed tree: the occupied count equals the storage length (the tree never
frees a slot, so every insert appends), the slots represent `kt` from the
root, child keys strictly increase along edges, all keys are in range,
keys are distinct, and every slot is a node of the tree. -/
structure TreeAbs {T : Type} (t : Tree T) (kt : KT T) : Prop where
  hcount : t.storage.item_count = t.storage.slots.length
  hrep : Rep t.storage.slots (some t.root) kt
  hincr : kt.Incr
  hlt : ∀ j ∈ kt.keys, j < t.storage.slots.length
  hnodup : kt.keys.Nodup
  hcomplete : ∀ i, i < t.storage.slots.length → i ∈ kt.keys

theorem containsGo_spec {T : Type} [LinearOrder T] (st : SlotMap (TreeNode T))
    (x : T) : ∀ (kt : KT T) (sk : SlotKey), Rep st.slots (some sk) kt →
    ∀ fuel, kt.height ≤ fuel →
    containsGo st x fuel sk = some (kt.strip.containsA x) := by
  intro kt
  induction kt with
  | leaf =>
    intro sk h
    cases h
  | node k kl d kr ihl ihr =>
    intro sk h fuel hf
    have hsk : sk = ⟨k⟩ := by
      have := h.of_node
      injection this
    subst hsk
    obtain ⟨-, nd, hs, hd, hl, hr⟩ := h.node_elim
    have hh : KT.height (.node k kl d kr) = max kl.height kr.height + 1 := rfl
    cases fuel with
    | zero => omega
    | succ f =>
      have hfl : kl.height ≤ f := by rw [hh] at hf; omega
      have hfr : kr.height ≤ f := by rw [hh] at hf; omega
      have hget : st.get ⟨k⟩ = some nd := by
        simp [SlotMap.get, hs]
      rw [KT.strip, BT.containsA, ← hd]
      simp only [containsGo, hget]
      by_cases hxd : x = nd.data
      · simp [hxd]
      · by_cases hlt2 : x < nd.data
        · simp only [hxd, hlt2, if_false, if_true]
          cases hkl : kl with
          | leaf =>
            subst hkl
            rw [hl.of_leaf]
            simp [KT.strip, BT.containsA]
          | node j jl jd jr =>
            subst hkl
            rw [hl.of_node]
            exact ihl ⟨j⟩ (hl.of_node ▸ hl) f hfl
        · simp only [hxd, hlt2, if_false]
          cases hkr : kr with
          | leaf =>
            subst hkr
            rw [hr.of_leaf]
            simp [KT.strip, BT.containsA]
          | node j jl jd jr =>
            subst hkr
            rw [hr.of_node]
            exact ihr ⟨j⟩ (hr.of_node ▸ hr) f hfr

/-- A represented tree is never a leaf at the root, so its abstract tree is a
node whose key is the root index. -/
theorem TreeAbs.root_node {T : Type} {t : Tree T} {kt : KT T}
    (h : TreeAbs t kt) :
    ∃ k kl d kr, kt = KT.node k kl d kr ∧ t.root = ⟨k⟩ := by
  cases hkt : kt with
  | leaf =>
    have h2 := h.hrep
    rw [hkt] at h2
    exact absurd h2.of_leaf (by simp)
  | node k kl d kr =>
    have h2 := h.hrep
    rw [hkt] at h2
    exact ⟨k, kl, d, kr, rfl, Option.some.inj h2.of_node⟩

/-- Refinement of `Tree.contains`: on an abstracted tree it terminates and
agrees with the abstract membership test. -/
theorem contains_spec {T : Type} [LinearOrder T] {t : Tree T} {kt : KT T}
    (h : TreeAbs t kt) (x : T) : t.contains x = some (kt.strip.containsA x) := by
  obtain ⟨k, kl, d, kr, rfl, hroot⟩ := h.root_node
  have hrep := h.hrep
  rw [hroot] at hrep
  rw [Tree.contains, hroot]
  exact containsGo_spec t.storage x _ ⟨k⟩ hrep _
    (KT.height_le _ h.hincr _ h.hlt)

theorem KT.insertK_node_shape {T : Type} [LinearOrder T] {nk : Nat} {x : T}
    {j : Nat} {a c : KT T} {b : T} {kt2 : KT T}
    (h : (KT.node j a b c).insertK nk x = some kt2) :
    ∃ l2 r2, kt2 = KT.node j l2 b r2 := by
  rw [KT.insertK] at h
  by_cases hxd : x = b
  · simp [hxd] at h
  · by_cases hlt : x < b
    · simp only [hxd, hlt, if_false, if_true, Option.map_eq_some'] at h
      obtain ⟨l2, -, rfl⟩ := h
      exact ⟨l2, c, rfl⟩
    · simp only [hxd, hlt, if_false, Option.map_eq_some'] at h
      obtain ⟨r2, -, rfl⟩ := h
      exact ⟨a, r2, rfl⟩

/-- When the occupied count equals the storage length, `SlotMap.insert`
takes the append branch. -/
theorem SlotMap.insert_append {T : Type} (m : SlotMap T) (x : T)
    (h : m.item_count = m.slots.length) :
    m.insert x = some (⟨m.slots.length⟩,
      { slots := m.slots ++ [Slot.new x],
        item_count := m.item_count + 1,
        empty_indexes := m.empty_indexes }) := by
  rw [SlotMap.insert, if_neg (by omega)]

theorem filterMap_set_obs {α β : Type} (f : α → Option β) :
    ∀ (l : List α) (p : Nat) (a a2 : α), l[p]? = some a → f a2 = f a →
    (l.set p a2).filterMap f = l.filterMap f := by
  intro l
  induction l with
  | nil =>
    intro p a a2 h
    simp at h
  | cons hd tl ih =>
    intro p a a2 h hf
    cases p with
    | zero =>
      simp only [List.getElem?_cons_zero] at h
      obtain rfl := Option.some.inj h
      rw [List.set]
      simp only [List.filterMap_cons, hf]
    | succ p2 =>
      simp only [List.getElem?_cons_succ] at h
      rw [List.set]
      simp only [List.filterMap_cons, ih p2 a a2 h hf]

/-- Simulation of the insert descent: when the abstract insertion succeeds,
`findInsert` finds the same attachment point, and performing the program's
mutation (append the new node, then set the parent's child link) yields a
representation of the abstract result. -/
theorem findInsert_sim {T : Type} [LinearOrder T] (st : SlotMap (TreeNode T))
    (x : T) :
    ∀ (kt : KT T) (sk : SlotKey) (kt2 : KT T),
      Rep st.slots (some sk) kt → kt.Incr →
      (∀ j ∈ kt.keys, j < st.slots.length) → kt.keys.Nodup →
      kt.insertK st.slots.length x = some kt2 →
      ∀ fuel, kt.height ≤ fuel →
      ∃ (p : Nat) (dir : TreeDirection) (nd : TreeNode T),
        findInsert st x fuel sk = some (.ok (⟨p⟩, dir)) ∧
        p ∈ kt.keys ∧ st.slots[p]? = some ⟨some nd⟩ ∧
        Rep ((st.slots ++ [Slot.new (TreeNode.new x)]).set p
            ⟨some (updChild nd dir ⟨st.slots.length⟩)⟩) (some sk) kt2 := by
  intro kt
  induction kt with
  | leaf =>
    intro sk kt2 h
    cases h
  | node k kl d kr ihl ihr =>
    intro sk kt2 h hincr hbnd hnd hins fuel hf
    have hsk : sk = ⟨k⟩ := by
      have h2 := h.of_node
      injection h2
    subst hsk
    obtain ⟨-, nd, hs, hd, hl, hr⟩ := h.node_elim
    obtain ⟨hklgt, hkrgt, hincl, hincr2⟩ := hincr
    rw [KT.keys] at hnd
    have hndlr : (kl.keys ++ kr.keys).Nodup := (List.nodup_cons.1 hnd).2
    have hdisj : ∀ j ∈ kl.keys, j ∉ kr.keys := by
      intro j hj hj2
      exact (List.disjoint_of_nodup_append hndlr) hj hj2
    have hklen : k < st.slots.length := hbnd k (by simp [KT.keys])
    have hh : KT.height (.node k kl d kr) = max kl.height kr.height + 1 := rfl
    cases fuel with
    | zero => omega
    | succ f =>
      have hfl : kl.height ≤ f := by rw [hh] at hf; omega
      have hfr : kr.height ≤ f := by rw [hh] at hf; omega
      have hget : st.get ⟨k⟩ = some nd := by
        simp [SlotMap.get, hs]
      rw [KT.insertK] at hins
      by_cases hxd : x = d
      · simp [hxd] at hins
      · have hxd2 : ¬x = nd.data := by rw [hd]; exact hxd
        by_cases hlt2 : x < d
        · have hlt22 : x < nd.data := by rw [hd]; exact hlt2
          simp only [hxd, hlt2, if_false, if_true, Option.map_eq_some'] at hins
          obtain ⟨kl2, hkl2, rfl⟩ := hins
          cases hklc : kl with
          | leaf =>
            subst hklc
            rw [KT.insertK] at hkl2
            obtain rfl := Option.some.inj hkl2
            have hnone : nd.left = none := hl.of_leaf
            refine ⟨k, .Left, nd, ?_, by simp [KT.keys], hs, ?_⟩
            · simp [findInsert, hget, hxd2, hlt22, hnone]
            · have hkn : k ≠ st.slots.length := Nat.ne_of_lt hklen
              have hslot2 : ((st.slots ++ [Slot.new (TreeNode.new x)]).set k
                  ⟨some (updChild nd .Left ⟨st.slots.length⟩)⟩)[k]? =
                  some ⟨some (updChild nd .Left ⟨st.slots.length⟩)⟩ := by
                rw [List.getElem?_set_self]
                simp
                omega
              have hnew : ((st.slots ++ [Slot.new (TreeNode.new x)]).set k
                  ⟨some (updChild nd .Left ⟨st.slots.length⟩)⟩)[st.slots.length]? =
                  some ⟨some (TreeNode.new x)⟩ := by
                rw [List.getElem?_set_ne hkn]
                exact List.getElem?_concat_length st.slots (Slot.new (TreeNode.new x))
              have hrepl : Rep ((st.slots ++ [Slot.new (TreeNode.new x)]).set k
                  ⟨some (updChild nd .Left ⟨st.slots.length⟩)⟩)
                  (some ⟨st.slots.length⟩)
                  (KT.node st.slots.length KT.leaf x KT.leaf) :=
                Rep.node hnew Rep.leaf Rep.leaf
              have hrepr : Rep ((st.slots ++ [Slot.new (TreeNode.new x)]).set k
                  ⟨some (updChild nd .Left ⟨st.slots.length⟩)⟩) nd.right kr :=
                Rep.mono_set (Rep.mono_append hr)
                  (fun hmem => absurd (hkrgt k hmem) (lt_irrefl k))
              have main := Rep.node hslot2 hrepl hrepr
              exact hd ▸ main
          | node j jl jd jr =>
            subst hklc
            have hsome : nd.left = some ⟨j⟩ := hl.of_node
            have hbndl : ∀ jj ∈ (KT.node j jl jd jr).keys,
                jj < st.slots.length := fun jj hjj =>
              hbnd jj (by
                rw [KT.keys]
                exact List.mem_cons_of_mem _ (List.mem_append_left _ hjj))
            have hndl : (KT.node j jl jd jr).keys.Nodup :=
              hndlr.of_append_left
            obtain ⟨p, dir, nd2, hfind, hpmem, hps, hrep2⟩ :=
              ihl ⟨j⟩ kl2 (hsome ▸ hl) hincl hbndl hndl hkl2 f hfl
            refine ⟨p, dir, nd2, ?_, ?_, hps, ?_⟩
            · simp only [findInsert, hget, hxd2, hlt22, if_false, if_true,
                hsome]
              exact hfind
            · rw [KT.keys]
              exact List.mem_cons_of_mem _ (List.mem_append_left _ hpmem)
            · obtain ⟨l2, r2, rfl⟩ := KT.insertK_node_shape hkl2
              have hpk : k < p := hklgt p hpmem
              have hpkne : p ≠ k := Nat.ne_of_gt hpk
              have hslot2k : ((st.slots ++ [Slot.new (TreeNode.new x)]).set p
                  ⟨some (updChild nd2 dir ⟨st.slots.length⟩)⟩)[k]? =
                  some ⟨some nd⟩ := by
                rw [List.getElem?_set_ne hpkne]
                exact getElem?_append_of_some hs
              have hrepr : Rep ((st.slots ++ [Slot.new (TreeNode.new x)]).set p
                  ⟨some (updChild nd2 dir ⟨st.slots.length⟩)⟩) nd.right kr :=
                Rep.mono_set (Rep.mono_append hr) (hdisj p hpmem)
              have hrepl2 : Rep ((st.slots ++ [Slot.new (TreeNode.new x)]).set p
                  ⟨some (updChild nd2 dir ⟨st.slots.length⟩)⟩) nd.left
                  (KT.node j l2 jd r2) := by
                rw [hsome]
                exact hrep2
              exact hd ▸ Rep.node hslot2k hrepl2 hrepr
        · have hdx : d < x := lt_of_le_of_ne (not_lt.1 hlt2) (Ne.symm hxd)
          have hlt22 : ¬x < nd.data := by rw [hd]; exact hlt2
          simp only [hxd, hlt2, if_false, Option.map_eq_some'] at hins
          obtain ⟨kr2, hkr2, rfl⟩ := hins
          cases hkrc : kr with
          | leaf =>
            subst hkrc
            rw [KT.insertK] at hkr2
            obtain rfl := Option.some.inj hkr2
            have hnone : nd.right = none := hr.of_leaf
            refine ⟨k, .Right, nd, ?_, by simp [KT.keys], hs, ?_⟩
            · simp [findInsert, hget, hxd2, hlt22, hnone]
            · have hkn : k ≠ st.slots.length := Nat.ne_of_lt hklen
              have hslot2 : ((st.slots ++ [Slot.new (TreeNode.new x)]).set k
                  ⟨some (updChild nd .Right ⟨st.slots.length⟩)⟩)[k]? =
                  some ⟨some (updChild nd .Right ⟨st.slots.length⟩)⟩ := by
                rw [List.getElem?_set_self]
                simp
                omega
              have hnew : ((st.slots ++ [Slot.new (TreeNode.new x)]).set k
                  ⟨some (updChild nd .Right ⟨st.slots.length⟩)⟩)[st.slots.length]? =
                  some ⟨some (TreeNode.new x)⟩ := by
                rw [List.getElem?_set_ne hkn]
                exact List.getElem?_concat_length st.slots (Slot.new (TreeNode.new x))
              have hrepr : Rep ((st.slots ++ [Slot.new (TreeNode.new x)]).set k
                  ⟨some (updChild nd .Right ⟨st.slots.length⟩)⟩)
                  (some ⟨st.slots.length⟩)
                  (KT.node st.slots.length KT.leaf x KT.leaf) :=
                Rep.node hnew Rep.leaf Rep.leaf
              have hrepl : Rep ((st.slots ++ [Slot.new (TreeNode.new x)]).set k
                  ⟨some (updChild nd .Right ⟨st.slots.length⟩)⟩) nd.left kl :=
                Rep.mono_set (Rep.mono_append hl)
                  (fun hmem => absurd (hklgt k hmem) (lt_irrefl k))
              have main := Rep.node hslot2 hrepl hrepr
              exact hd ▸ main
          | node j jl jd jr =>
            subst hkrc
            have hsome : nd.right = some ⟨j⟩ := hr.of_node
            have hbndr : ∀ jj ∈ (KT.node j jl jd jr).keys,
                jj < st.slots.length := fun jj hjj =>
              hbnd jj (by
                rw [KT.keys]
                exact List.mem_cons_of_mem _ (List.mem_append_right _ hjj))
            have hndr : (KT.node j jl jd jr).keys.Nodup :=
              hndlr.of_append_right
            obtain ⟨p, dir, nd2, hfind, hpmem, hps, hrep2⟩ :=
              ihr ⟨j⟩ kr2 (hsome ▸ hr) hincr2 hbndr hndr hkr2 f hfr
            refine ⟨p, dir, nd2, ?_, ?_, hps, ?_⟩
            · simp only [findInsert, hget, hxd2, hlt22, if_false, hsome]
              exact hfind
            · rw [KT.keys]
              exact List.mem_cons_of_mem _ (List.mem_append_right _ hpmem)
            · obtain ⟨l2, r2, rfl⟩ := KT.insertK_node_shape hkr2
              have hpk : k < p := hkrgt p hpmem
              have hpkne : p ≠ k := Nat.ne_of_gt hpk
              have hslot2k : ((st.slots ++ [Slot.new (TreeNode.new x)]).set p
                  ⟨some (updChild nd2 dir ⟨st.slots.length⟩)⟩)[k]? =
                  some ⟨some nd⟩ := by
                rw [List.getElem?_set_ne hpkne]
                exact getElem?_append_of_some hs
              have hrepl : Rep ((st.slots ++ [Slot.new (TreeNode.new x)]).set p
                  ⟨some (updChild nd2 dir ⟨st.slots.length⟩)⟩) nd.left kl :=
                Rep.mono_set (Rep.mono_append hl)
                  (fun hmem => (hdisj p hmem) hpmem)
              have hrepr2 : Rep ((st.slots ++ [Slot.new (TreeNode.new x)]).set p
                  ⟨some (updChild nd2 dir ⟨st.slots.length⟩)⟩) nd.right
                  (KT.node j l2 jd r2) := by
                rw [hsome]
                exact hrep2
              exact hd ▸ Rep.node hslot2k hrepl hrepr2

/-- Step refinement of a successful `insert_ordered`: when the abstract
insertion succeeds, the concrete call returns `Ok` and the new state is
abstracted by the abstract result; storage order gains exactly the new value
at the end, and the root key is unchanged. -/
theorem insert_ordered_ok {T : Type} [LinearOrder T] {t : Tree T}
    {kt kt2 : KT T} (h : TreeAbs t kt) {x : T}
    (hins : kt.insertK t.storage.slots.length x = some kt2) :
    ∃ t2 : Tree T, t.insert_ordered x = some (.ok (), t2) ∧ TreeAbs t2 kt2 ∧
      t2.values = t.values ++ [x] ∧ t2.root = t.root := by
  obtain ⟨p, dir, nd, hfind, hpmem, hps, hrep2⟩ :=
    findInsert_sim t.storage x kt t.root kt2 h.hrep h.hincr h.hlt h.hnodup hins
      t.storage.slots.length (KT.height_le _ h.hincr _ h.hlt)
  have happend := SlotMap.insert_append t.storage (TreeNode.new x) h.hcount
  have hps1 : (t.storage.slots ++ [Slot.new (TreeNode.new x)])[p]? =
      some ⟨some nd⟩ := getElem?_append_of_some hps
  refine ⟨⟨⟨(t.storage.slots ++ [Slot.new (TreeNode.new x)]).set p
      ⟨some (updChild nd dir ⟨t.storage.slots.length⟩)⟩,
      t.storage.item_count + 1, t.storage.empty_indexes⟩, t.root⟩,
    ?_, ?_, ?_, rfl⟩
  · rw [Tree.insert_ordered, hfind, happend]
    simp only [SlotKey.index_mk, hps1]
  · have hlen2 : ((t.storage.slots ++ [Slot.new (TreeNode.new x)]).set p
        ⟨some (updChild nd dir ⟨t.storage.slots.length⟩)⟩).length =
        t.storage.slots.length + 1 := by
      simp
    have hkeys2 := KT.keys_insertK hins
    refine ⟨?_, hrep2, ?_, ?_, ?_, ?_⟩
    · rw [hlen2, h.hcount]
    · exact KT.incr_insertK h.hincr h.hlt hins
    · intro j hj
      rw [hlen2]
      rcases List.mem_cons.1 (hkeys2.mem_iff.1 hj) with hj2 | hj2
      · omega
      · have := h.hlt j hj2
        omega
    · rw [hkeys2.nodup_iff]
      exact List.nodup_cons.2 ⟨fun hmem =>
        absurd (h.hlt _ hmem) (lt_irrefl _), h.hnodup⟩
    · intro i hi
      rw [hlen2] at hi
      rw [hkeys2.mem_iff]
      rcases Nat.lt_succ_iff_lt_or_eq.1 hi with hi2 | hi2
      · exact List.mem_cons_of_mem _ (h.hcomplete i hi2)
      · rw [hi2]
        exact List.mem_cons_self _ _
  · rw [Tree.values, Tree.values]
    have hobs : (fun s : Slot (TreeNode T) => s.item.map (fun nd => nd.data))
        (⟨some (updChild nd dir ⟨t.storage.slots.length⟩)⟩ : Slot (TreeNode T)) =
        (fun s : Slot (TreeNode T) => s.item.map (fun nd => nd.data))
        (⟨some nd⟩ : Slot (TreeNode T)) := by
      cases dir <;> rfl
    rw [filterMap_set_obs _ _ p ⟨some nd⟩ _ hps1 hobs, List.filterMap_append]
    rfl

/-- When the membership descent answers `true`, the insert descent from the
same key with the same fuel follows the same path and rejects a duplicate. -/
theorem containsGo_findInsert {T : Type} [LinearOrder T]
    (st : SlotMap (TreeNode T)) (x : T) :
    ∀ (fuel : Nat) (sk : SlotKey), containsGo st x fuel sk = some true →
    findInsert st x fuel sk = some (.error x) := by
  intro fuel
  induction fuel with
  | zero =>
    intro sk h
    rw [containsGo] at h
    cases h
  | succ f ih =>
    intro sk h
    rw [containsGo] at h
    rw [findInsert]
    cases hget : st.get sk with
    | none =>
      rw [hget] at h
      cases h
    | some nd =>
      rw [hget] at h
      simp only at h ⊢
      by_cases hxd : x = nd.data
      · simp [hxd]
      · by_cases hlt : x < nd.data
        · simp only [hxd, hlt, if_false, if_true] at h ⊢
          cases hL : nd.left with
          | none =>
            rw [hL] at h
            simp at h
          | some lk =>
            rw [hL] at h
            exact ih lk h
        · simp only [hxd, hlt, if_false] at h ⊢
          cases hR : nd.right with
          | none =>
            rw [hR] at h
            simp at h
          | some rk =>
            rw [hR] at h
            exact ih rk h

/-- Inserting a value the membership test reports present returns
`Err(value)` and the tree unchanged (lines 272-275: the loop returns before
any mutation). -/
theorem insert_ordered_dup {T : Type} [LinearOrder T] (t : Tree T) (x : T)
    (h : t.contains x = some true) :
    t.insert_ordered x = some (.error x, t) := by
  rw [Tree.contains] at h
  rw [Tree.insert_ordered, containsGo_findInsert t.storage x _ t.root h]

/-- When the abstract insertion reports a duplicate, the concrete call
returns `Err(value)` with the tree unchanged. -/
theorem insert_ordered_err {T : Type} [LinearOrder T] {t : Tree T}
    {kt : KT T} (h : TreeAbs t kt) {x : T}
    (hins : kt.insertK t.storage.slots.length x = none) :
    t.insert_ordered x = some (.error x, t) := by
  apply insert_ordered_dup
  rw [contains_spec h x]
  rw [(BT.insertA_none_iff x kt.strip).1
    ((KT.insertK_none_iff _ x kt).1 hins)]

/-- Value stored at the root slot. -/
def Tree.rootData {T : Type} (t : Tree T) : Option T :=
  (t.storage.get t.root).map TreeNode.data

theorem TreeAbs.rootData_eq {T : Type} {t : Tree T} {kt : KT T}
    (h : TreeAbs t kt) {k : Nat} {kl kr : KT T} {d : T}
    (hkt : kt = KT.node k kl d kr) : t.rootData = some d := by
  subst hkt
  obtain ⟨hroot, nd, hs, hd, -, -⟩ := h.hrep.node_elim
  rw [Tree.rootData, hroot]
  simp [SlotMap.get, hs, hd]

/-- Every tree the program can build satisfies this invariant: some abstract
keyed tree represents it, the abstract tree satisfies the binary-search-tree
ordering, and the storage-order values are a permutation of the in-order
values. -/
def Tree.Good {T : Type} [LinearOrder T] (t : Tree T) : Prop :=
  ∃ kt : KT T, TreeAbs t kt ∧ kt.strip.SortedB ∧ t.values.Perm kt.strip.inOrd

theorem good_new {T : Type} [LinearOrder T] (r : T) : (Tree.new r).Good := by
  refine ⟨KT.node 0 .leaf r .leaf, ⟨rfl, ?_, ?_, ?_, ?_, ?_⟩, ?_, ?_⟩
  · exact @Rep.node _ [Slot.new (TreeNode.new r)] 0 (TreeNode.new r)
      KT.leaf KT.leaf rfl Rep.leaf Rep.leaf
  · exact ⟨by simp [KT.keys], by simp [KT.keys], trivial, trivial⟩
  · intro j hj
    simp only [KT.keys, List.append_nil] at hj
    simp only [List.mem_singleton] at hj
    simp [Tree.new, hj]
  · simp [KT.keys]
  · intro i hi
    simp only [Tree.new, List.length_singleton] at hi
    simp [KT.keys]
    omega
  · exact ⟨by simp [BT.inOrd, KT.strip], by simp [BT.inOrd, KT.strip],
      trivial, trivial⟩
  · simp [Tree.values, Tree.new, KT.strip, BT.inOrd, Slot.new, TreeNode.new]

/-- Step invariant: `insert_ordered` on a good tree never panics; it either
rejects a present value with the tree unchanged, or appends an absent value
to the storage-order values.  The root value is unchanged either way. -/
theorem good_insert {T : Type} [LinearOrder T] {t : Tree T} (hg : t.Good)
    (x : T) :
    ∃ res t2, t.insert_ordered x = some (res, t2) ∧ t2.Good ∧
      t2.rootData = t.rootData ∧
      ((res = .error x ∧ t2 = t ∧ x ∈ t.values) ∨
       (res = .ok () ∧ t2.values = t.values ++ [x] ∧ x ∉ t.values)) := by
  obtain ⟨kt, habs, hsort, hperm⟩ := hg
  obtain ⟨k, kl, d, kr, hkt, hroot⟩ := habs.root_node
  cases hins : kt.insertK t.storage.slots.length x with
  | none =>
    have herr := insert_ordered_err habs hins
    have hmem : x ∈ t.values := by
      have h1 := (KT.insertK_none_iff _ x kt).1 hins
      have h2 := (BT.insertA_none_iff x kt.strip).1 h1
      exact hperm.mem_iff.2 ((BT.containsA_iff_mem x kt.strip hsort).1 h2)
    exact ⟨.error x, t, herr, ⟨kt, habs, hsort, hperm⟩, rfl,
      Or.inl ⟨rfl, rfl, hmem⟩⟩
  | some kt2 =>
    obtain ⟨t2, hok, habs2, hvals, -⟩ := insert_ordered_ok habs hins
    have hstrip := KT.strip_insertK hins
    have hsort2 := BT.insertA_sorted hsort hstrip
    have hperm2 : t2.values.Perm kt2.strip.inOrd := by
      rw [hvals]
      exact (List.perm_append_singleton x t.values).trans
        ((hperm.cons x).trans (BT.insertA_inOrd_perm hstrip).symm)
    have hnotmem : x ∉ t.values := by
      intro hmem
      have hc := (BT.containsA_iff_mem x kt.strip hsort).2 (hperm.mem_iff.1 hmem)
      have h2 := (BT.insertA_none_iff x kt.strip).2 hc
      rw [h2] at hstrip
      cases hstrip
    have hrd : t2.rootData = t.rootData := by
      obtain ⟨l2, r2, hkt2⟩ := KT.insertK_node_shape (hkt ▸ hins)
      rw [habs2.rootData_eq hkt2, habs.rootData_eq hkt]
    exact ⟨.ok (), t2, hok, ⟨kt2, habs2, hsort2, hperm2⟩, hrd,
      Or.inr ⟨rfl, hvals, hnotmem⟩⟩

/-- On a good tree, `contains` terminates and decides membership in the
stored values. -/
theorem contains_good {T : Type} [LinearOrder T] {t : Tree T} (hg : t.Good)
    (x : T) : t.contains x = some (decide (x ∈ t.values)) := by
  obtain ⟨kt, habs, hsort, hperm⟩ := hg
  rw [contains_spec habs x]
  have h1 : kt.strip.containsA x = true ↔ x ∈ t.values :=
    (BT.containsA_iff_mem x kt.strip hsort).trans hperm.mem_iff.symm
  by_cases hmem : x ∈ t.values
  · rw [h1.2 hmem, decide_eq_true hmem]
  · have h2 : kt.strip.containsA x ≠ true := fun hc => hmem (h1.1 hc)
    rw [Bool.eq_false_iff.2 h2, decide_eq_false hmem]

/-- Feeding any value sequence to a good tree (duplicates rejected and
dropped, as in the driver loop) never panics, preserves goodness, and the
final stored values are exactly the old values plus the fed ones. -/
theorem insertAll_good {T : Type} [LinearOrder T] :
    ∀ (vs : List T) (t : Tree T), t.Good →
    ∃ t2, insertAll t vs = some t2 ∧ t2.Good ∧
      t2.rootData = t.rootData ∧
      (∀ u, u ∈ t2.values ↔ u ∈ t.values ∨ u ∈ vs) := by
  intro vs
  induction vs with
  | nil =>
    intro t hg
    exact ⟨t, rfl, hg, rfl, by simp⟩
  | cons v vs ih =>
    intro t hg
    obtain ⟨res, t1, hstep, hg1, hrd1, hcase⟩ := good_insert hg v
    have hfold : insertAll t (v :: vs) = insertAll t1 vs := by
      rw [insertAll, List.foldlM_cons, hstep]
      rfl
    obtain ⟨t2, hall, hg2, hrd2, hmem⟩ := ih t1 hg1
    refine ⟨t2, by rw [hfold]; exact hall, hg2, by rw [hrd2, hrd1], fun u => ?_⟩
    rw [hmem u]
    rcases hcase with ⟨-, rfl, hv⟩ | ⟨-, hvals, -⟩
    · simp only [List.mem_cons]
      constructor
      · rintro (h | h)
        · exact Or.inl h
        · exact Or.inr (Or.inr h)
      · rintro (h | rfl | h)
        · exact Or.inl h
        · exact Or.inl hv
        · exact Or.inr h
    · rw [hvals]
      simp only [List.mem_append, List.mem_singleton, List.mem_cons]
      tauto

/-- Building a tree from a root value and a fed sequence: the result is good
and stores exactly the root and the fed values. -/
theorem buildTree_good {T : Type} [LinearOrder T] (r : T) (vs : List T) :
    ∃ t, buildTree r vs = some t ∧ t.Good ∧ t.rootData = some r ∧
      (∀ u, u ∈ t.values ↔ u ∈ r :: vs) := by
  obtain ⟨t, h1, h2, hrd, h3⟩ := insertAll_good vs (Tree.new r) (good_new r)
  refine ⟨t, h1, h2, ?_, fun u => ?_⟩
  · rw [hrd]
    rfl
  · rw [h3 u]
    have hnew : (Tree.new r).values = [r] := rfl
    rw [hnew]
    simp [List.mem_cons]

/-- Inserting pairwise-distinct absent values appends them to the storage
order exactly, through the rebuild loop of `delete` (`insertAllStrict`,
which panics on a duplicate: none occurs here). -/
theorem insertAllStrict_distinct {T : Type} [LinearOrder T] :
    ∀ (vs : List T) (t : Tree T), t.Good → (∀ v ∈ vs, v ∉ t.values) →
    vs.Nodup →
    ∃ t2, insertAllStrict t vs = some t2 ∧ t2.Good ∧
      t2.values = t.values ++ vs ∧ t2.rootData = t.rootData := by
  intro vs
  induction vs with
  | nil =>
    intro t hg _ _
    exact ⟨t, rfl, hg, by simp, rfl⟩
  | cons v vs ih =>
    intro t hg habs hnd
    obtain ⟨res, t1, hstep, hg1, hrd1, hcase⟩ := good_insert hg v
    rcases hcase with ⟨-, -, hv⟩ | ⟨hres, hvals, -⟩
    · exact absurd hv (habs v (List.mem_cons_self v vs))
    · subst hres
      have hfold : insertAllStrict t (v :: vs) = insertAllStrict t1 vs := by
        rw [insertAllStrict, List.foldlM_cons, hstep]
        rfl
      have habs1 : ∀ u ∈ vs, u ∉ t1.values := by
        intro u hu hmem
        rw [hvals] at hmem
        rcases List.mem_append.1 hmem with hmem | hmem
        · exact habs u (List.mem_cons_of_mem v hu) hmem
        · rw [List.mem_singleton] at hmem
          subst hmem
          exact (List.nodup_cons.1 hnd).1 hu
      obtain ⟨t2, hall, hg2, hvals2, hrd2⟩ :=
        ih t1 hg1 habs1 (List.nodup_cons.1 hnd).2
      refine ⟨t2, by rw [hfold]; exact hall, hg2, ?_, by rw [hrd2, hrd1]⟩
      rw [hvals2, hvals]
      simp

/-- Stored values of a good tree are pairwise distinct. -/
theorem good_values_nodup {T : Type} [LinearOrder T] {t : Tree T}
    (hg : t.Good) : t.values.Nodup := by
  obtain ⟨kt, -, hsort, hperm⟩ := hg
  have h1 := (BT.sorted_inOrd_pairwise kt.strip hsort).imp
    (fun hlt => ne_of_lt hlt)
  exact hperm.nodup_iff.2 h1

/-- Whole-tree rebuild of `delete` on a good tree containing `v` and at
least one other value: the call succeeds, the survivors keep their storage
order, the first survivor becomes the new root, and membership afterwards is
membership before minus `v`. -/
theorem delete_good {T : Type} [LinearOrder T] {t : Tree T} (hg : t.Good)
    {v : T} (hc : t.contains v = some true)
    (hother : ∃ u ∈ t.values, u ≠ v) :
    ∃ r2 rest t2, t.values.filter (fun u => u ≠ v) = r2 :: rest ∧
      t.delete v = some t2 ∧
      t.delete v = insertAllStrict (Tree.new r2) rest ∧
      t2.Good ∧ t2.values = t.values.filter (fun u => u ≠ v) ∧
      t2.rootData = some r2 ∧ t2.contains v = some false ∧
      (∀ u, u ≠ v → t2.contains u = t.contains u) := by
  have hvnodup := good_values_nodup hg
  have hfilnodup : (t.values.filter (fun u => u ≠ v)).Nodup :=
    hvnodup.filter _
  cases hsurv : t.values.filter (fun u => u ≠ v) with
  | nil =>
    exfalso
    obtain ⟨u, hu, hune⟩ := hother
    have : u ∈ t.values.filter (fun u => u ≠ v) :=
      List.mem_filter.2 ⟨hu, by simp [hune]⟩
    rw [hsurv] at this
    cases this
  | cons r2 rest =>
    rw [hsurv] at hfilnodup
    have hdel : t.delete v = insertAllStrict (Tree.new r2) rest := by
      rw [Tree.delete, hc, hsurv]
    have habs2 : ∀ u ∈ rest, u ∉ (Tree.new r2).values := by
      intro u hu hmem
      have hnew : (Tree.new r2).values = [r2] := rfl
      rw [hnew, List.mem_singleton] at hmem
      subst hmem
      exact (List.nodup_cons.1 hfilnodup).1 hu
    obtain ⟨t2, hall, hg2, hvals2, hrd2⟩ := insertAllStrict_distinct rest
      (Tree.new r2) (good_new r2) habs2 (List.nodup_cons.1 hfilnodup).2
    have hvals2b : t2.values = r2 :: rest := by
      rw [hvals2]
      rfl
    have hnew_rd : (Tree.new r2).rootData = some r2 := rfl
    have hnomem : v ∉ t2.values := by
      rw [hvals2b, ← hsurv]
      intro hmem
      have := (List.mem_filter.1 hmem).2
      simp at this
    refine ⟨r2, rest, t2, rfl, by rw [hdel]; exact hall, hdel, hg2,
      by rw [hvals2b], by rw [hrd2, hnew_rd], ?_, ?_⟩
    · rw [contains_good hg2 v, decide_eq_false hnomem]
    · intro u hune
      rw [contains_good hg2 u, contains_good hg u]
      have hmemiff : u ∈ t2.values ↔ u ∈ t.values := by
        rw [hvals2b, ← hsurv, List.mem_filter]
        simp [hune]
      by_cases hmem : u ∈ t.values
      · rw [decide_eq_true hmem, decide_eq_true (hmemiff.2 hmem)]
      · rw [decide_eq_false hmem, decide_eq_false (fun h2 => hmem (hmemiff.1 h2))]

/-- A freshly built single-node tree reports its root value present. -/
theorem tree_new_contains_self {T : Type} [LinearOrder T] (r : T) :
    (Tree.new r).contains r = some true := by
  rw [contains_good (good_new r) r]
  have hnew : (Tree.new r).values = [r] := rfl
  rw [hnew]
  simp

/-- Deleting the only value of a single-node tree is fatal: every slot value
is discarded and `items.next().expect("All trees must have one root")`
panics. -/
theorem delete_single_fatal {T : Type} [LinearOrder T] (r : T) :
    (Tree.new r).delete r = none := by
  rw [Tree.delete, tree_new_contains_self r]
  have hnew : (Tree.new r).values = [r] := rfl
  rw [hnew]
  simp

/-- Abstract traversal pairs for a given ordering. -/
def ordP {T : Type} : TreeOrdering → KT T → List (Nat × T)
  | .Pre, kt => kt.preP
  | .In, kt => kt.inP
  | .Post, kt => kt.postP

/-- Refinement of the depth-first traversal worker: on a represented subtree
it terminates and produces the abstract traversal pairs. -/
theorem innerOutP_spec {T : Type} (st : SlotMap (TreeNode T))
    (ord : TreeOrdering) :
    ∀ (kt : KT T) (ok : Option SlotKey), Rep st.slots ok kt →
    ∀ fuel, kt.height ≤ fuel →
    innerOutP st ord fuel ok = some (ordP ord kt) := by
  intro kt
  induction kt with
  | leaf =>
    intro ok h fuel _
    rw [h.of_leaf]
    cases ord <;> cases fuel <;> rfl
  | node k kl d kr ihl ihr =>
    intro ok h fuel hf
    rw [h.of_node]
    obtain ⟨-, nd, hs, hd, hl, hr⟩ := (h.of_node ▸ h).node_elim
    have hh : KT.height (.node k kl d kr) = max kl.height kr.height + 1 := rfl
    cases fuel with
    | zero => omega
    | succ f =>
      have hfl : kl.height ≤ f := by rw [hh] at hf; omega
      have hfr : kr.height ≤ f := by rw [hh] at hf; omega
      have hget : st.get ⟨k⟩ = some nd := by
        simp [SlotMap.get, hs]
      have hL := ihl nd.left hl f hfl
      have hR := ihr nd.right hr f hfr
      cases ord <;>
        simp [innerOutP, hget, hL, hR, ordP, KT.preP, KT.inP, KT.postP, hd]

/-- The traversal output of a represented tree, with slot indexes. -/
theorem outOrderP_spec {T : Type} {t : Tree T} {kt : KT T}
    (habs : TreeAbs t kt) (ord : TreeOrdering) :
    t.outOrderP ord = some (ordP ord kt) :=
  innerOutP_spec t.storage ord kt (some t.root) habs.hrep _
    (KT.height_le _ habs.hincr _ habs.hlt)

theorem forestSize_append {T : Type} (q r : List (KT T)) :
    forestSize (q ++ r) = forestSize q + forestSize r := by
  simp [forestSize]

/-- Child keys of a represented node are represented by the child forests. -/
theorem Rep.toForest_rel {T : Type} {slots : List (Slot (TreeNode T))}
    {ok : Option SlotKey} {kt : KT T} (h : Rep slots ok kt) :
    List.Forall₂ (fun (k : SlotKey) (kt2 : KT T) => Rep slots (some k) kt2)
      ok.toList kt.toForest := by
  cases h with
  | leaf => exact .nil
  | node hs hl hr => exact .cons (Rep.node hs hl hr) .nil

/-- Refinement of the breadth-first queue loop: a queue of keys representing
a forest yields the abstract level-order pairs, with fuel the total node
count. -/
theorem outBreadthGo_spec {T : Type} (st : SlotMap (TreeNode T)) :
    ∀ (fuel : Nat) (queue : List SlotKey) (kts : List (KT T)),
    List.Forall₂ (fun (k : SlotKey) (kt : KT T) => Rep st.slots (some k) kt)
      queue kts →
    forestSize kts ≤ fuel →
    outBreadthGo st fuel queue = some (bfsP kts) := by
  intro fuel
  induction fuel with
  | zero =>
    intro queue kts hrel hsz
    cases hrel with
    | nil => simp [outBreadthGo.eq_def, bfsP]
    | cons hk hrest =>
      exfalso
      rename_i k kt queue2 kts2
      cases hkt : kt with
      | leaf =>
        rw [hkt] at hk
        cases hk
      | node kk kl d kr =>
        rw [hkt] at hsz
        have : KT.sizeK (.node kk kl d kr) = kl.sizeK + kr.sizeK + 1 := rfl
        simp only [forestSize, List.map_cons, List.sum_cons] at hsz
        omega
  | succ f ih =>
    intro queue kts hrel hsz
    cases hrel with
    | nil => simp [outBreadthGo.eq_def, bfsP]
    | cons hk hrest =>
      rename_i k kt queue2 kts2
      cases hkt : kt with
      | leaf =>
        rw [hkt] at hk
        cases hk
      | node kk kl d kr =>
        subst hkt
        have hsk : k = ⟨kk⟩ := by
          have h2 := hk.of_node
          injection h2
        subst hsk
        obtain ⟨-, nd, hs, hd, hl, hr⟩ := hk.node_elim
        have hget : st.get ⟨kk⟩ = some nd := by
          simp [SlotMap.get, hs]
        have hrel2 : List.Forall₂
            (fun (k2 : SlotKey) (kt2 : KT T) => Rep st.slots (some k2) kt2)
            (queue2 ++ nd.left.toList ++ nd.right.toList)
            (kts2 ++ kl.toForest ++ kr.toForest) :=
          List.rel_append (List.rel_append hrest hl.toForest_rel)
            hr.toForest_rel
        have hsz2 : forestSize (kts2 ++ kl.toForest ++ kr.toForest) ≤ f := by
          rw [forestSize_append, forestSize_append, toForest_size,
            toForest_size]
          have hnode : KT.sizeK (.node kk kl d kr) =
            kl.sizeK + kr.sizeK + 1 := rfl
          simp only [forestSize, List.map_cons, List.sum_cons] at hsz
          simp only [forestSize]
          omega
        have hstep := ih (queue2 ++ nd.left.toList ++ nd.right.toList)
          (kts2 ++ kl.toForest ++ kr.toForest) hrel2 hsz2
        rw [outBreadthGo.eq_def]
        simp only [hget, hstep, Option.map_some']
        rw [bfsP, hd]

/-- Forest size of the whole tree is bounded by the storage length. -/
theorem TreeAbs.sizeK_le {T : Type} {t : Tree T} {kt : KT T}
    (habs : TreeAbs t kt) : kt.sizeK ≤ t.storage.slots.length := by
  rw [← KT.keys_length_sizeK]
  have hsub : kt.keys ⊆ List.range t.storage.slots.length := by
    intro j hj
    rw [List.mem_range]
    exact habs.hlt j hj
  have := (List.subperm_of_subset habs.hnodup hsub).length_le
  simpa using this

/-- Refinement of `out_breadth` on an abstracted tree. -/
theorem outBreadthP_spec {T : Type} {t : Tree T} {kt : KT T}
    (habs : TreeAbs t kt) : t.outBreadthP = some (bfsP [kt]) := by
  rw [Tree.outBreadthP]
  have hrel : List.Forall₂
      (fun (k : SlotKey) (kt2 : KT T) => Rep t.storage.slots (some k) kt2)
      [t.root] [kt] := .cons habs.hrep .nil
  have hsz : forestSize [kt] ≤ t.storage.slots.length := by
    simpa [forestSize] using habs.sizeK_le
  exact outBreadthGo_spec t.storage _ [t.root] [kt] hrel hsz

/-- Position of the first occurrence of a key in a key list. -/
def idxN (x : Nat) : List Nat → Nat
  | [] => 0
  | a :: l => if a = x then 0 else idxN x l + 1

theorem idxN_cons_self (x : Nat) (l : List Nat) : idxN x (x :: l) = 0 := by
  simp [idxN]

theorem idxN_cons_ne {a x : Nat} (l : List Nat) (h : a ≠ x) :
    idxN x (a :: l) = idxN x l + 1 := by
  simp [idxN, h]

theorem idxN_append_left {x : Nat} {l1 : List Nat} (l2 : List Nat)
    (h : x ∈ l1) : idxN x (l1 ++ l2) = idxN x l1 := by
  induction l1 with
  | nil => cases h
  | cons a l1 ih =>
    by_cases hax : a = x
    · simp [idxN, hax]
    · have h2 : x ∈ l1 := by
        rcases List.mem_cons.1 h with h2 | h2
        · exact absurd h2.symm hax
        · exact h2
      simp [idxN, hax, ih h2]

theorem idxN_append_right {x : Nat} {l1 : List Nat} (l2 : List Nat)
    (h : x ∉ l1) : idxN x (l1 ++ l2) = l1.length + idxN x l2 := by
  induction l1 with
  | nil => simp
  | cons a l1 ih =>
    have hax : a ≠ x := fun heq => h (heq ▸ List.mem_cons_self a l1)
    have h2 : x ∉ l1 := fun hmem => h (List.mem_cons_of_mem a hmem)
    simp [idxN, hax, ih h2]
    omega

theorem idxN_lt_length {x : Nat} {l : List Nat} (h : x ∈ l) :
    idxN x l < l.length := by
  induction l with
  | nil => cases h
  | cons a l ih =>
    by_cases hax : a = x
    · simp [idxN, hax]
    · have h2 : x ∈ l := by
        rcases List.mem_cons.1 h with h2 | h2
        · exact absurd h2.symm hax
        · exact h2
      simp [idxN, hax]
      exact ih h2

/-- In the pre-order key sequence (which is `keys` itself), every parent
precedes each of its children. -/
theorem pre_keys_prec {T : Type} : ∀ kt : KT T, kt.keys.Nodup →
    ∀ p c, (p, c) ∈ kt.edges → idxN p kt.keys < idxN c kt.keys := by
  intro kt
  induction kt with
  | leaf =>
    intro _ p c h
    simp [KT.edges] at h
  | node k kl d kr ihl ihr =>
    intro hnd p c h
    rw [KT.keys] at hnd ⊢
    rw [List.cons_append]
    have hkn : k ∉ kl.keys ++ kr.keys := (List.nodup_cons.1 hnd).1
    have hndlr := (List.nodup_cons.1 hnd).2
    have hdisj := List.disjoint_of_nodup_append hndlr
    rw [KT.edges] at h
    simp only [List.mem_append] at h
    rcases h with ((h | h) | h) | h
    · cases hL : kl.rootK with
      | none => simp [hL] at h
      | some c0 =>
        simp only [hL, Option.map_some', Option.toList_some,
          List.mem_singleton, Prod.mk.injEq] at h
        obtain ⟨rfl, rfl⟩ := h
        have hcmem : c ∈ kl.keys := KT.rootK_mem hL
        have hne : p ≠ c := fun heq =>
          hkn (heq ▸ List.mem_append_left _ hcmem)
        rw [idxN_cons_self, idxN_cons_ne _ hne]
        omega
    · cases hR : kr.rootK with
      | none => simp [hR] at h
      | some c0 =>
        simp only [hR, Option.map_some', Option.toList_some,
          List.mem_singleton, Prod.mk.injEq] at h
        obtain ⟨rfl, rfl⟩ := h
        have hcmem : c ∈ kr.keys := KT.rootK_mem hR
        have hne : p ≠ c := fun heq =>
          hkn (heq ▸ List.mem_append_right _ hcmem)
        rw [idxN_cons_self, idxN_cons_ne _ hne]
        omega
    · obtain ⟨hp, hc⟩ := KT.edges_mem h
      have hpk : k ≠ p := fun heq => hkn (heq ▸ List.mem_append_left _ hp)
      have hck : k ≠ c := fun heq => hkn (heq ▸ List.mem_append_left _ hc)
      rw [idxN_cons_ne _ hpk, idxN_cons_ne _ hck,
        idxN_append_left _ hp, idxN_append_left _ hc]
      have := ihl hndlr.of_append_left p c h
      omega
    · obtain ⟨hp, hc⟩ := KT.edges_mem h
      have hpk : k ≠ p := fun heq => hkn (heq ▸ List.mem_append_right _ hp)
      have hck : k ≠ c := fun heq => hkn (heq ▸ List.mem_append_right _ hc)
      have hpnl : p ∉ kl.keys := fun hmem => hdisj hmem hp
      have hcnl : c ∉ kl.keys := fun hmem => hdisj hmem hc
      rw [idxN_cons_ne _ hpk, idxN_cons_ne _ hck,
        idxN_append_right _ hpnl, idxN_append_right _ hcnl]
      have := ihr hndlr.of_append_right p c h
      omega

/-- Post-order key sequence. -/
def KT.postKeys {T : Type} : KT T → List Nat
  | .leaf => []
  | .node k l _ r => l.postKeys ++ r.postKeys ++ [k]

theorem KT.postP_map_fst {T : Type} (kt : KT T) :
    kt.postP.map Prod.fst = kt.postKeys := by
  induction kt <;> simp [KT.postP, KT.postKeys, *]

theorem KT.postKeys_perm {T : Type} (kt : KT T) :
    kt.postKeys.Perm kt.keys := by
  rw [← KT.postP_map_fst]
  exact KT.postP_map_fst_perm kt

/-- In the post-order key sequence, every parent comes after each of its
children. -/
theorem post_keys_prec {T : Type} : ∀ kt : KT T, kt.keys.Nodup →
    ∀ p c, (p, c) ∈ kt.edges →
    idxN c kt.postKeys < idxN p kt.postKeys := by
  intro kt
  induction kt with
  | leaf =>
    intro _ p c h
    simp [KT.edges] at h
  | node k kl d kr ihl ihr =>
    intro hnd p c h
    rw [KT.keys] at hnd
    have hkn : k ∉ kl.keys ++ kr.keys := (List.nodup_cons.1 hnd).1
    have hndlr := (List.nodup_cons.1 hnd).2
    have hdisj := List.disjoint_of_nodup_append hndlr
    have hmeml : ∀ x, x ∈ kl.postKeys ↔ x ∈ kl.keys := fun x =>
      (KT.postKeys_perm kl).mem_iff
    have hmemr : ∀ x, x ∈ kr.postKeys ↔ x ∈ kr.keys := fun x =>
      (KT.postKeys_perm kr).mem_iff
    have hkAB : k ∉ kl.postKeys ++ kr.postKeys := by
      intro hmem
      rcases List.mem_append.1 hmem with hmem | hmem
      · exact hkn (List.mem_append_left _ ((hmeml k).1 hmem))
      · exact hkn (List.mem_append_right _ ((hmemr k).1 hmem))
    rw [KT.postKeys]
    rw [KT.edges] at h
    simp only [List.mem_append] at h
    rcases h with ((h | h) | h) | h
    · cases hL : kl.rootK with
      | none => simp [hL] at h
      | some c0 =>
        simp only [hL, Option.map_some', Option.toList_some,
          List.mem_singleton, Prod.mk.injEq] at h
        obtain ⟨rfl, rfl⟩ := h
        have hc0 : c ∈ kl.postKeys := (hmeml c).2 (KT.rootK_mem hL)
        have hc0AB : c ∈ kl.postKeys ++ kr.postKeys :=
          List.mem_append_left _ hc0
        rw [idxN_append_right _ hkAB, idxN_cons_self,
          idxN_append_left _ hc0AB]
        have := idxN_lt_length hc0AB
        omega
    · cases hR : kr.rootK with
      | none => simp [hR] at h
      | some c0 =>
        simp only [hR, Option.map_some', Option.toList_some,
          List.mem_singleton, Prod.mk.injEq] at h
        obtain ⟨rfl, rfl⟩ := h
        have hc0 : c ∈ kr.postKeys := (hmemr c).2 (KT.rootK_mem hR)
        have hc0AB : c ∈ kl.postKeys ++ kr.postKeys :=
          List.mem_append_right _ hc0
        rw [idxN_append_right _ hkAB, idxN_cons_self,
          idxN_append_left _ hc0AB]
        have := idxN_lt_length hc0AB
        omega
    · obtain ⟨hp, hc⟩ := KT.edges_mem h
      have hpA : p ∈ kl.postKeys := (hmeml p).2 hp
      have hcA : c ∈ kl.postKeys := (hmeml c).2 hc
      rw [idxN_append_left _ (List.mem_append_left _ hpA),
        idxN_append_left _ (List.mem_append_left _ hcA),
        idxN_append_left _ hpA, idxN_append_left _ hcA]
      exact ihl hndlr.of_append_left p c h
    · obtain ⟨hp, hc⟩ := KT.edges_mem h
      have hpB : p ∈ kr.postKeys := (hmemr p).2 hp
      have hcB : c ∈ kr.postKeys := (hmemr c).2 hc
      have hpnA : p ∉ kl.postKeys := fun hmem =>
        hdisj ((hmeml p).1 hmem) hp
      have hcnA : c ∉ kl.postKeys := fun hmem =>
        hdisj ((hmeml c).1 hmem) hc
      rw [idxN_append_left _ (List.mem_append_right _ hpB),
        idxN_append_left _ (List.mem_append_right _ hcB),
        idxN_append_right _ hpnA, idxN_append_right _ hcnA]
      have := ihr hndlr.of_append_right p c h
      omega

theorem Rep.rootK_of_some {T : Type} {slots : List (Slot (TreeNode T))}
    {k : SlotKey} {kt : KT T} (h : Rep slots (some k) kt) :
    kt.rootK = some k.index := by
  cases h
  rfl

/-- A concrete parent-child link between slots that belong to the
represented tree is an edge of the abstract tree. -/
theorem rep_childOf_edge {T : Type} {slots : List (Slot (TreeNode T))} :
    ∀ (kt : KT T) (ok : Option SlotKey), Rep slots ok kt →
    ∀ p, p ∈ kt.keys →
    ∀ (s : Slot (TreeNode T)) (nd : TreeNode T) (c : Nat),
      slots[p]? = some s → s.item = some nd →
      (nd.left = some ⟨c⟩ ∨ nd.right = some ⟨c⟩) → (p, c) ∈ kt.edges := by
  intro kt
  induction kt with
  | leaf =>
    intro ok _ p hp
    simp [KT.keys] at hp
  | node k kl d kr ihl ihr =>
    intro ok h p hp s nd c hs hitem hlink
    obtain ⟨-, nd0, hs0, hd0, hl, hr⟩ := (h.of_node ▸ h).node_elim
    rw [KT.keys] at hp
    rw [KT.edges]
    simp only [List.mem_append]
    rcases List.mem_cons.1 hp with rfl | hp2
    · have hseq : s = ⟨some nd0⟩ := by
        rw [hs] at hs0
        exact Option.some.inj hs0
      subst hseq
      have hnd0 : nd = nd0 := Option.some.inj hitem.symm
      subst hnd0
      rcases hlink with hlink | hlink
      · rw [hlink] at hl
        left
        left
        left
        simp [hl.rootK_of_some]
      · rw [hlink] at hr
        left
        left
        right
        simp [hr.rootK_of_some]
    · rcases List.mem_append.1 hp2 with hp3 | hp3
      · left
        right
        exact ihl nd0.left hl p hp3 s nd c hs hitem hlink
      · right
        exact ihr nd0.right hr p hp3 s nd c hs hitem hlink

/-- On an abstracted tree, the concrete parent-child relation between slots
coincides with abstract edges. -/
theorem childOf_edge_abs {T : Type} {t : Tree T} {kt : KT T}
    (habs : TreeAbs t kt) {p c : Nat} (h : t.childOf p c) :
    (p, c) ∈ kt.edges := by
  obtain ⟨s, nd, hs, hitem, hlink⟩ := h
  have hplt : p < t.storage.slots.length := (List.getElem?_eq_some.1 hs).1
  exact rep_childOf_edge kt (some t.root) habs.hrep p
    (habs.hcomplete p hplt) s nd c hs hitem hlink

theorem mem_forestKeys_of {T : Type} {q : List (KT T)} {t : KT T}
    (ht : t ∈ q) {x : Nat} (hx : x ∈ t.keys) : x ∈ forestKeys q := by
  rw [forestKeys]
  exact List.mem_flatten.2 ⟨t.keys, List.mem_map_of_mem _ ht, hx⟩

/-- In the breadth-first key sequence of a forest with distinct keys, every
parent precedes each of its children. -/
theorem bfs_keys_prec {T : Type} : ∀ q : List (KT T), (forestKeys q).Nodup →
    ∀ t ∈ q, ∀ p c, (p, c) ∈ t.edges →
    idxN p ((bfsP q).map Prod.fst) < idxN c ((bfsP q).map Prod.fst) := by
  intro q
  induction q using bfsP.induct with
  | case1 =>
    intro _ t ht
    cases ht
  | case2 q ih =>
    intro hnd t ht p c h
    rw [bfsP]
    have hnd2 : (forestKeys q).Nodup := by
      rw [forestKeys_cons] at hnd
      simpa [KT.keys] using hnd
    rcases List.mem_cons.1 ht with rfl | ht2
    · simp [KT.edges] at h
    · exact ih hnd2 t ht2 p c h
  | case3 k kl d kr q ih =>
    intro hnd t ht p c h
    have hq2 : forestKeys (q ++ kl.toForest ++ kr.toForest) =
        forestKeys q ++ (kl.keys ++ kr.keys) := by
      rw [forestKeys_append, forestKeys_append, forestKeys_toForest,
        forestKeys_toForest, List.append_assoc]
    have hperm1 : (forestKeys (KT.node k kl d kr :: q)).Perm
        (k :: forestKeys (q ++ kl.toForest ++ kr.toForest)) := by
      rw [forestKeys_cons, KT.keys, hq2]
      exact (List.perm_append_comm).cons k
    have hnd1 := hperm1.nodup_iff.1 hnd
    have hkq : k ∉ forestKeys (q ++ kl.toForest ++ kr.toForest) :=
      (List.nodup_cons.1 hnd1).1
    have hndq : (forestKeys (q ++ kl.toForest ++ kr.toForest)).Nodup :=
      (List.nodup_cons.1 hnd1).2
    rw [bfsP]
    simp only [List.map_cons]
    have hlift : ∀ p2 c2, p2 ∈ forestKeys (q ++ kl.toForest ++ kr.toForest) →
        c2 ∈ forestKeys (q ++ kl.toForest ++ kr.toForest) →
        idxN p2 ((bfsP (q ++ kl.toForest ++ kr.toForest)).map Prod.fst) <
          idxN c2 ((bfsP (q ++ kl.toForest ++ kr.toForest)).map Prod.fst) →
        idxN p2 (k :: (bfsP (q ++ kl.toForest ++ kr.toForest)).map Prod.fst) <
          idxN c2 (k :: (bfsP (q ++ kl.toForest ++ kr.toForest)).map
            Prod.fst) := by
      intro p2 c2 hp2 hc2 hlt
      have hkp : k ≠ p2 := fun heq => hkq (by rw [heq]; exact hp2)
      have hkc : k ≠ c2 := fun heq => hkq (by rw [heq]; exact hc2)
      rw [idxN_cons_ne _ hkp, idxN_cons_ne _ hkc]
      omega
    rcases List.mem_cons.1 ht with rfl | htq
    · rw [KT.edges] at h
      simp only [List.mem_append] at h
      rcases h with ((h | h) | h) | h
      · cases hL : kl.rootK with
        | none => simp [hL] at h
        | some c0 =>
          simp only [hL, Option.map_some', Option.toList_some,
            List.mem_singleton, Prod.mk.injEq] at h
          obtain ⟨rfl, rfl⟩ := h
          have hc0 : c ∈ forestKeys (q ++ kl.toForest ++ kr.toForest) := by
            rw [hq2]
            exact List.mem_append_right _
              (List.mem_append_left _ (KT.rootK_mem hL))
          have hne : p ≠ c := fun heq => hkq (by rw [heq]; exact hc0)
          rw [idxN_cons_self, idxN_cons_ne _ hne]
          omega
      · cases hR : kr.rootK with
        | none => simp [hR] at h
        | some c0 =>
          simp only [hR, Option.map_some', Option.toList_some,
            List.mem_singleton, Prod.mk.injEq] at h
          obtain ⟨rfl, rfl⟩ := h
          have hc0 : c ∈ forestKeys (q ++ kl.toForest ++ kr.toForest) := by
            rw [hq2]
            exact List.mem_append_right _
              (List.mem_append_right _ (KT.rootK_mem hR))
          have hne : p ≠ c := fun heq => hkq (by rw [heq]; exact hc0)
          rw [idxN_cons_self, idxN_cons_ne _ hne]
          omega
      · cases hklc : kl with
        | leaf =>
          subst hklc
          simp [KT.edges] at h
        | node k2 l2 d2 r2 =>
          subst hklc
          have hmem2 : KT.node k2 l2 d2 r2 ∈
              q ++ (KT.node k2 l2 d2 r2).toForest ++ kr.toForest :=
            List.mem_append_left _ (List.mem_append_right _
              (by rw [KT.toForest]; exact List.mem_singleton.2 rfl))
          have hprec := ih hndq _ hmem2 p c h
          obtain ⟨hp, hc⟩ := KT.edges_mem h
          exact hlift p c (mem_forestKeys_of hmem2 hp)
            (mem_forestKeys_of hmem2 hc) hprec
      · cases hkrc : kr with
        | leaf =>
          subst hkrc
          simp [KT.edges] at h
        | node k2 l2 d2 r2 =>
          subst hkrc
          have hmem2 : KT.node k2 l2 d2 r2 ∈
              q ++ kl.toForest ++ (KT.node k2 l2 d2 r2).toForest :=
            List.mem_append_right _
              (by rw [KT.toForest]; exact List.mem_singleton.2 rfl)
          have hprec := ih hndq _ hmem2 p c h
          obtain ⟨hp, hc⟩ := KT.edges_mem h
          exact hlift p c (mem_forestKeys_of hmem2 hp)
            (mem_forestKeys_of hmem2 hc) hprec
    · have htq2 : t ∈ q ++ kl.toForest ++ kr.toForest :=
        List.mem_append_left _ (List.mem_append_left _ htq)
      have hprec := ih hndq t htq2 p c h
      obtain ⟨hp, hc⟩ := KT.edges_mem h
      exact hlift p c (mem_forestKeys_of htq2 hp)
        (mem_forestKeys_of htq2 hc) hprec

/-! Claim theorems. -/

/-- Operation sequence exhibiting the C1/C2 bitmap-reuse bug: three inserts,
remove key 0, insert (reuses slot 0 without re-marking its bitmap bit),
remove key 1, and one more insert. -/
def c1ops : List (ArenaOp Nat) :=
  [.ins 10, .ins 20, .ins 30, .rem 0, .ins 40, .rem 1, .ins 50]

/-- C1: the claim states that after any sequence of Arena operations
`item_count` equals the number of occupied slots.  The code violates it:
`insert` never sets the bitmap bit back to 1 when it reuses a freed slot, so
a later insert overwrites an occupied slot; after `c1ops` every operation
has succeeded, yet `item_count` is 3 while only 2 slots are occupied.  This
theorem evaluates the code at that failing input. -/
theorem claim_C1_count_desync :
    (arenaRun c1ops).map
      (fun m => (m.item_count, m.occupiedCount, m.slots.map Slot.item)) =
    some (3, 2, [some 50, none, some 30]) := by decide

/-- State just before the insert that goes wrong for C2. -/
def c2ops : List (ArenaOp Nat) :=
  [.ins 10, .ins 20, .ins 30, .rem 0, .ins 40, .rem 1]

/-- C2: the claim states that insert places the item in the lowest-indexed
EMPTY slot and never overwrites an occupied slot's item.  After `c2ops` the
slots are `[some 40, none, some 30]` (the lowest empty slot is index 1), yet
`insert 50` trusts the stale bitmap, returns the key of index 0 and
overwrites the occupied slot holding 40.  This theorem evaluates the code at
that failing input. -/
theorem claim_C2_insert_overwrites :
    (arenaRun c2ops).map (fun m =>
      (m.slots.map Slot.item,
        (m.insert 50).map (fun p => (p.1.index, p.2.slots.map Slot.item)))) =
    some ([some 40, none, some 30], some (0, [some 50, none, some 30])) := by
  decide

/-- Inserts filling two bitmap chunks, then a removal in the second chunk. -/
def c3ops : List (ArenaOp Nat) :=
  (List.range 65).map (fun i => .ins i) ++ [.rem 64]

/-- C3: the claim states that removing an in-range occupied key always
completes, including freeing a low-index slot after a higher-index chunk was
already tracked.  The code violates it: after `c3ops`, `empty_indexes` has 2
words; removing key 0 evaluates `(slot_chunk + 1) - empty_indexes.len()` =
`1 - 2` in usize, which panics in a debug build (and makes the while loop
diverge in a release build).  This theorem evaluates the code at that
failing input: slot 0 is occupied and in range, yet the removal is fatal. -/
theorem claim_C3_remove_low_after_high :
    ((arenaRun c3ops).map (fun m =>
      (m.slots.length, m.empty_indexes.length,
        (m.slots[0]?).map (fun s => s.item.isSome))) =
      some (65, 2, some true)) ∧
    arenaRun (c3ops ++ [.rem 0]) = none := by
  constructor
  · decide
  · decide

/-- C4: calling `remove` with an in-range key whose slot is already empty is
fatal: the operation yields no resulting arena state at all (the process
terminates), so no partial mutation of the state is observable. -/
theorem claim_C4_remove_empty_fatal {T : Type} (m : SlotMap T) (k : SlotKey)
    (hin : k.index < m.slots.length)
    (hempty : (m.slots.get ⟨k.index, hin⟩).item = none) :
    m.remove k = none := by
  rw [SlotMap.remove, dif_pos hin]
  by_cases h0 : m.item_count = 0
  · simp [h0]
  · simp only [h0, if_false]
    by_cases h1 : m.empty_indexes.length > k.index / 64 + 1
    · simp [h1]
    · simp only [h1, if_false]
      rw [hempty]

/-- Arena state with one empty in-range slot, for the C4 witness. -/
def c4map : SlotMap Nat := ⟨[⟨none⟩], 0, []⟩

theorem claim_C4_witness :
    0 < c4map.slots.length ∧ c4map.remove ⟨0⟩ = none :=
  ⟨by decide, claim_C4_remove_empty_fatal c4map ⟨0⟩ (by decide) (by rfl)⟩

/-- C5 counterexample: the claim as stated quantifies over EVERY tree that
contains `v`, but for a single-node tree holding only `v`, `delete v` does
not return a tree at all — the rebuild finds no surviving root and is
fatal. -/
theorem claim_C5_counterexample :
    (Tree.new (0 : Nat)).contains 0 = some true ∧
    (Tree.new (0 : Nat)).delete 0 = none := by
  constructor
  · decide
  · decide

/-- C5 (amended: the tree must also contain at least one value other than
`v`): for every good tree containing `v` and another value, `delete v`
succeeds and returns the tree rebuilt from the surviving values in storage
order — the first survivor is the new root value and the rest are inserted
via `insert_ordered` in that order; the new value list is the old one minus
`v`, `contains v` is false afterwards, and `contains u` is unchanged for
every `u ≠ v`. -/
theorem claim_C5_delete_rebuild {T : Type} [LinearOrder T] {t : Tree T}
    (hg : t.Good) {v : T} (hc : t.contains v = some true)
    (hother : ∃ u ∈ t.values, u ≠ v) :
    ∃ r2 rest t2, t.values.filter (fun u => u ≠ v) = r2 :: rest ∧
      t.delete v = some t2 ∧
      t.delete v = insertAllStrict (Tree.new r2) rest ∧
      t2.values = t.values.filter (fun u => u ≠ v) ∧
      t2.rootData = some r2 ∧ t2.contains v = some false ∧
      (∀ u, u ≠ v → t2.contains u = t.contains u) := by
  obtain ⟨r2, rest, t2, hsurv, hdel, hdel2, -, hvals, hrd, hcv, hcu⟩ :=
    delete_good hg hc hother
  exact ⟨r2, rest, t2, hsurv, hdel, hdel2, hvals, hrd, hcv, hcu⟩

theorem claim_C5_witness :
    ∃ t t2, buildTree (2 : Nat) [1, 3] = some t ∧ t.delete 1 = some t2 ∧
      t2.values = t.values.filter (fun u => u ≠ 1) ∧
      t2.contains 1 = some false ∧ t2.contains 3 = t.contains 3 := by
  obtain ⟨t, hb, hg, -, hmem⟩ := buildTree_good (2 : Nat) [1, 3]
  have hc : t.contains 1 = some true := by
    rw [contains_good hg 1, decide_eq_true ((hmem 1).2 (by decide))]
  have hother : ∃ u ∈ t.values, u ≠ 1 :=
    ⟨2, (hmem 2).2 (by decide), by decide⟩
  obtain ⟨r2, rest, t2, -, hdel, -, hvals, -, hcv, hcu⟩ :=
    claim_C5_delete_rebuild hg hc hother
  exact ⟨t, t2, hb, hdel, hvals, hcv, hcu 3 (by decide)⟩

/-- C6: deleting the only stored value of a single-node tree does not return
a tree: the rebuild finds no surviving value to use as the new root and
fails fatally at `items.next().expect("All trees must have one root")`. -/
theorem claim_C6_delete_single {T : Type} [LinearOrder T] (v : T) :
    (Tree.new v).delete v = none := delete_single_fatal v

theorem claim_C6_witness : (Tree.new (7 : Nat)).delete 7 = none :=
  claim_C6_delete_single 7

/-- C7: building a tree from a root value and a sequence of pairwise
distinct values via `insert_ordered`, `contains` answers true for the root
value and every inserted value, and false for every value never
inserted. -/
theorem claim_C7_contains {T : Type} [LinearOrder T] (r : T) (vs : List T)
    (_hnd : vs.Nodup) :
    ∃ t, buildTree r vs = some t ∧
      (∀ v ∈ r :: vs, t.contains v = some true) ∧
      (∀ u, u ∉ r :: vs → t.contains u = some false) := by
  obtain ⟨t, hb, hg, -, hmem⟩ := buildTree_good r vs
  refine ⟨t, hb, fun v hv => ?_, fun u hu => ?_⟩
  · rw [contains_good hg v, decide_eq_true ((hmem v).2 hv)]
  · rw [contains_good hg u, decide_eq_false (fun h2 => hu ((hmem u).1 h2))]

theorem claim_C7_witness :
    ∃ t, buildTree (10 : Nat) [5, 15] = some t ∧
      t.contains 15 = some true ∧ t.contains 7 = some false := by
  obtain ⟨t, hb, h1, h2⟩ := claim_C7_contains (10 : Nat) [5, 15] (by decide)
  exact ⟨t, hb, h1 15 (by decide), h2 7 (by decide)⟩

/-- C8: inserting a value already present (as reported by `contains`)
returns the rejected value back as `Err` and performs no mutation: the tree
after the call is the tree before it, so `contains` is unchanged for every
value. -/
theorem claim_C8_insert_duplicate {T : Type} [LinearOrder T] (t : Tree T)
    (v : T) (h : t.contains v = some true) :
    t.insert_ordered v = some (.error v, t) :=
  insert_ordered_dup t v h

theorem claim_C8_witness :
    (Tree.new (4 : Nat)).insert_ordered 4 =
      some (.error 4, Tree.new (4 : Nat)) :=
  claim_C8_insert_duplicate (Tree.new 4) 4 (by decide)

/-- C9: for every tree built from a root value and any insertion sequence
via `insert_ordered`, the in-order traversal succeeds and prints the tree's
values in strictly ascending order. -/
theorem claim_C9_inorder_sorted {T : Type} [LinearOrder T] (r : T)
    (vs : List T) {t : Tree T} (hb : buildTree r vs = some t) :
    ∃ l, t.out_order .In = some l ∧ l.Pairwise (· < ·) ∧
      l.Perm t.values := by
  obtain ⟨t2, hb2, hg, -, -⟩ := buildTree_good r vs
  rw [hb] at hb2
  obtain rfl := Option.some.inj hb2
  obtain ⟨kt, habs, hsort, hperm⟩ := hg
  have hout := outOrderP_spec habs .In
  refine ⟨kt.inP.map Prod.snd, ?_, ?_, ?_⟩
  · rw [Tree.out_order, hout]
    rfl
  · rw [KT.inP_map_snd]
    exact BT.sorted_inOrd_pairwise _ hsort
  · rw [KT.inP_map_snd]
    exact hperm.symm

theorem claim_C9_witness :
    ∃ t l, buildTree (8 : Nat) [4, 21, 7] = some t ∧
      t.out_order .In = some l ∧ l.Pairwise (· < ·) := by
  cases hbe : buildTree (8 : Nat) [4, 21, 7] with
  | none => exact absurd hbe (by decide)
  | some t =>
    obtain ⟨l, h1, h2, -⟩ := claim_C9_inorder_sorted 8 [4, 21, 7] hbe
    exact ⟨t, l, rfl, h1, h2⟩

/-- C10: for every tree built via `insert_ordered`, the breadth-first
output never visits a node (slot) before its parent, the pre-order output
visits every node before both of its children, and the post-order output
visits every node after both of its children; positions are taken in the
instrumented key sequence whose value projection is the printed output. -/
theorem claim_C10_traversal_order {T : Type} [LinearOrder T] (r : T)
    (vs : List T) {t : Tree T} (hb : buildTree r vs = some t) :
    (∃ ps, t.outBreadthP = some ps ∧
      t.out_breadth = some (ps.map Prod.snd) ∧
      ∀ p c, t.childOf p c →
        idxN p (ps.map Prod.fst) < idxN c (ps.map Prod.fst)) ∧
    (∃ ps, t.outOrderP .Pre = some ps ∧
      t.out_order .Pre = some (ps.map Prod.snd) ∧
      ∀ p c, t.childOf p c →
        idxN p (ps.map Prod.fst) < idxN c (ps.map Prod.fst)) ∧
    (∃ ps, t.outOrderP .Post = some ps ∧
      t.out_order .Post = some (ps.map Prod.snd) ∧
      ∀ p c, t.childOf p c →
        idxN c (ps.map Prod.fst) < idxN p (ps.map Prod.fst)) := by
  obtain ⟨t2, hb2, hg, -, -⟩ := buildTree_good r vs
  rw [hb] at hb2
  obtain rfl := Option.some.inj hb2
  obtain ⟨kt, habs, -, -⟩ := hg
  have hfk : forestKeys [kt] = kt.keys := by
    simp [forestKeys]
  refine ⟨⟨bfsP [kt], outBreadthP_spec habs, ?_, fun p c hpc => ?_⟩,
    ⟨kt.preP, outOrderP_spec habs .Pre, ?_, fun p c hpc => ?_⟩,
    ⟨kt.postP, outOrderP_spec habs .Post, ?_, fun p c hpc => ?_⟩⟩
  · rw [Tree.out_breadth, outBreadthP_spec habs]
    rfl
  · exact bfs_keys_prec [kt] (hfk ▸ habs.hnodup) kt
      (List.mem_singleton.2 rfl) p c (childOf_edge_abs habs hpc)
  · rw [Tree.out_order, outOrderP_spec habs .Pre]
    rfl
  · rw [KT.preP_map_fst]
    exact pre_keys_prec kt habs.hnodup p c (childOf_edge_abs habs hpc)
  · rw [Tree.out_order, outOrderP_spec habs .Post]
    rfl
  · rw [KT.postP_map_fst]
    exact post_keys_prec kt habs.hnodup p c (childOf_edge_abs habs hpc)

theorem claim_C10_witness :
    ∃ t ps, buildTree (8 : Nat) [4, 21, 7] = some t ∧
      t.outBreadthP = some ps ∧
      t.out_breadth = some (ps.map Prod.snd) := by
  cases hbe : buildTree (8 : Nat) [4, 21, 7] with
  | none => exact absurd hbe (by decide)
  | some t =>
    obtain ⟨⟨ps, h1, h2, -⟩, -, -⟩ :=
      claim_C10_traversal_order 8 [4, 21, 7] hbe
    exact ⟨t, ps, rfl, h1, h2⟩

end SchoolBinaryTree
